import Mathlib

/-!
Osmium visitor dispatch (`include/osmium/visitor.hpp`)

A shallow embedding of the dispatch engine of `osmium/visitor.hpp`:
`switch_on_type`, `apply_item_recurse`, `switch_on_type_before_after`,
`apply_before_and_after_recurse`, `apply_item` and `apply`.

Visitor code is external to the header.  A run of the dispatcher is therefore
observed through the sequence of calls it makes on its visitors (each call
recorded with the position of the visitor in the parameter pack handed to the
entry point) together with the exception, if any, that ends the run.  Visitor
methods themselves are taken to return normally.
-/

namespace osmium

/-- Modelled from the spec: the enumeration `osmium::item_type` is declared in
`osmium/osm.hpp`, which is not part of the sources at hand.  It is the closed
set of tags of the data model: the sentinel `undefined`, the four entity tags
and the composite tags, the relation member list having two variants.  The
enumerator names are the ones `visitor.hpp` switches over. -/
inductive item_type where
  | undefined
  | node
  | way
  | relation
  | changeset
  | tag_list
  | way_node_list
  | relation_member_list
  | relation_member_list_with_full_members
  deriving DecidableEq, Repr

/-- Modelled from the spec: `osmium::memory::Item` is declared in
`osmium/memory/buffer.hpp`, not part of the sources at hand.  A record is a
buffer-backed value borrowed by reference, with a queryable type tag; `addr`
is the position of the record in its buffer, which is the identity of the
reference. -/
structure Item where
  type : item_type
  addr : Nat
  deriving DecidableEq, Repr

/-- The concrete record classes an item reference is statically cast to. -/
inductive Shape where
  | Node
  | Way
  | Relation
  | Changeset
  | TagList
  | WayNodeList
  | RelationMemberList
  deriving DecidableEq, Repr

/-- One call made on a visitor.  `call_operator s item` is
`visitor(static_cast<s&>(item))`, the overload of the call operator for the
shape `s`; the others are the named member functions of a handler. -/
inductive Call where
  | call_operator (shape : Shape) (item : Item)
  | node (item : Item)
  | way (item : Item)
  | relation (item : Item)
  | changeset (item : Item)
  | init
  | before_nodes
  | after_nodes
  | before_ways
  | after_ways
  | before_relations
  | after_relations
  | before_changesets
  | after_changesets
  | done
  deriving DecidableEq, Repr

/-- A call together with the visitor it is made on, the visitor being named by
its position (from 0) in the pack `visitors...` of the entry point. -/
structure Event where
  visitor : Nat
  call : Call
  deriving DecidableEq, Repr

/-- The exception type `std::runtime_error`, with its message. -/
structure runtime_error where
  what : String
  deriving DecidableEq, Repr

/-- What a `void` function of the header has done when control leaves it: the
calls made on visitors so far, and the exception in flight, if any. -/
structure Outcome where
  trace : List Event
  thrown : Option runtime_error
  deriving DecidableEq, Repr

/-- Sequential composition of two statements: the second runs only if the
first did not throw. -/
def Outcome.andThen (a b : Outcome) : Outcome :=
  match a.thrown with
  | none => ⟨a.trace ++ b.trace, b.thrown⟩
  | some e => ⟨a.trace, some e⟩

/-- The empty statement. -/
def Outcome.skip : Outcome := ⟨[], none⟩

/-- A single call on the visitor at position `visitor`. -/
def Outcome.invoke (visitor : Nat) (c : Call) : Outcome := ⟨[⟨visitor, c⟩], none⟩

/-- The statement `throw std::runtime_error("unknown type")`. -/
def Outcome.throw_unknown_type : Outcome := ⟨[], some ⟨"unknown type"⟩⟩

/-- The static kind of a visitor type `TVisitor`: whether it derives from
`osmium::handler::Handler` or is a plain callable. -/
inductive Visitor where
  | callable
  | handler
  deriving DecidableEq, Repr

/-- The type `std::is_base_of<osmium::handler::Handler, TVisitor>::type`, as
the boolean it stands for. -/
def Visitor.is_base_of_Handler : Visitor → Bool
  | .callable => false
  | .handler => true

namespace visitor.detail

/-- The two generic overloads of `switch_on_type(visitor, item, tag)`, lines
56-104, selected by the tag type (`false` for `std::false_type`, `true` for
`std::true_type`). -/
def switch_on_type (visitor : Nat) (item : Item) : Bool → Outcome
  | false =>
    match item.type with
    | .node => Outcome.invoke visitor (.call_operator .Node item)
    | .way => Outcome.invoke visitor (.call_operator .Way item)
    | .relation => Outcome.invoke visitor (.call_operator .Relation item)
    | .changeset => Outcome.invoke visitor (.call_operator .Changeset item)
    | .tag_list => Outcome.invoke visitor (.call_operator .TagList item)
    | .way_node_list => Outcome.invoke visitor (.call_operator .WayNodeList item)
    | .relation_member_list
    | .relation_member_list_with_full_members =>
      Outcome.invoke visitor (.call_operator .RelationMemberList item)
    | _ => Outcome.throw_unknown_type
  | true =>
    match item.type with
    | .node => Outcome.invoke visitor (.node item)
    | .way => Outcome.invoke visitor (.way item)
    | .relation => Outcome.invoke visitor (.relation item)
    | .changeset => Outcome.invoke visitor (.changeset item)
    | _ => Outcome.throw_unknown_type

/-- The overload of `switch_on_type` for a handler and an item reference of
static type `osmium::Object&`, lines 106-121. -/
def switch_on_type_Object (visitor : Nat) (item : Item) : Outcome :=
  match item.type with
  | .node => Outcome.invoke visitor (.node item)
  | .way => Outcome.invoke visitor (.way item)
  | .relation => Outcome.invoke visitor (.relation item)
  | _ => Outcome.throw_unknown_type

/-- The overload of `switch_on_type` for a handler and an item reference of
static type `const osmium::Object&`, lines 123-138; its body differs from the
one for `osmium::Object&` in the constness of the casts only. -/
def switch_on_type_const_Object (visitor : Nat) (item : Item) : Outcome :=
  match item.type with
  | .node => Outcome.invoke visitor (.node item)
  | .way => Outcome.invoke visitor (.way item)
  | .relation => Outcome.invoke visitor (.relation item)
  | _ => Outcome.throw_unknown_type

/-- The one-visitor overload `apply_item_recurse(item, visitor)`, lines
140-144. -/
def apply_item_recurse (item : Item) (idx : Nat) (visitor : Visitor) : Outcome :=
  switch_on_type idx item visitor.is_base_of_Handler

/-- The variadic overload `apply_item_recurse(item, visitor, more...)`, lines
146-150.  With an empty `more` overload resolution picks the one-visitor
overload. -/
def apply_item_recurse_pack (item : Item) (idx : Nat) (visitor : Visitor) :
    List Visitor → Outcome
  | [] => apply_item_recurse item idx visitor
  | next :: more =>
    (apply_item_recurse item idx visitor).andThen
      (apply_item_recurse_pack item (idx + 1) next more)

/-- The two overloads of `switch_on_type_before_after(last, current, visitor,
tag)`, lines 152-197. -/
def switch_on_type_before_after (last current : item_type) (visitor : Nat) :
    Bool → Outcome
  | false => Outcome.skip
  | true =>
    (match last with
      | .undefined => Outcome.invoke visitor .init
      | .node => Outcome.invoke visitor .after_nodes
      | .way => Outcome.invoke visitor .after_ways
      | .relation => Outcome.invoke visitor .after_relations
      | .changeset => Outcome.invoke visitor .after_changesets
      | _ => Outcome.skip).andThen
    (match current with
      | .undefined => Outcome.invoke visitor .done
      | .node => Outcome.invoke visitor .before_nodes
      | .way => Outcome.invoke visitor .before_ways
      | .relation => Outcome.invoke visitor .before_relations
      | .changeset => Outcome.invoke visitor .before_changesets
      | _ => Outcome.skip)

/-- The one-visitor overload `apply_before_and_after_recurse(last, current,
visitor)`, lines 199-203. -/
def apply_before_and_after_recurse (last current : item_type) (idx : Nat)
    (visitor : Visitor) : Outcome :=
  switch_on_type_before_after last current idx visitor.is_base_of_Handler

/-- The variadic overload `apply_before_and_after_recurse(last, current,
visitor, more...)`, lines 205-209. -/
def apply_before_and_after_recurse_pack (last current : item_type) (idx : Nat)
    (visitor : Visitor) : List Visitor → Outcome
  | [] => apply_before_and_after_recurse last current idx visitor
  | next :: more =>
    (apply_before_and_after_recurse last current idx visitor).andThen
      (apply_before_and_after_recurse_pack last current (idx + 1) next more)

end visitor.detail

open visitor.detail

/-- The entry point `apply_item(item, visitors...)`, lines 215-223 (the const
and the non-const overload have the same body). -/
def apply_item (item : Item) (visitor : Visitor) (more : List Visitor) : Outcome :=
  apply_item_recurse_pack item 0 visitor more

/-- The loop of `apply(it, end, visitors...)`, lines 228-235, from a given
value of the local `last_type`, over the records still to come. -/
def apply_loop (visitor : Visitor) (more : List Visitor) :
    item_type → List Item → Outcome
  | last_type, [] =>
    apply_before_and_after_recurse_pack last_type .undefined 0 visitor more
  | last_type, item :: rest =>
    ((if last_type ≠ item.type then
        apply_before_and_after_recurse_pack last_type item.type 0 visitor more
      else Outcome.skip).andThen
      (apply_item_recurse_pack item 0 visitor more)).andThen
    (apply_loop visitor more (if last_type ≠ item.type then item.type else last_type) rest)

/-- The entry point `apply(it, end, visitors...)`, lines 225-236, over the
records of the range `[it, end)`. -/
def apply (stream : List Item) (visitor : Visitor) (more : List Visitor) : Outcome :=
  apply_loop visitor more .undefined stream

/-! ## Vocabulary of the specification -/

namespace spec

/-- The entity tags: node, way, relation, changeset. -/
def is_entity : item_type → Bool
  | .node | .way | .relation | .changeset => true
  | _ => false

/-- The composite tags: tag list, way node list and the two variants of the
relation member list. -/
def is_composite : item_type → Bool
  | .tag_list | .way_node_list | .relation_member_list
  | .relation_member_list_with_full_members => true
  | _ => false

/-- The handler method named for the tag of a record, applied to the record;
there is none for a tag that is not an entity tag. -/
def named_method (item : Item) : Option Call :=
  match item.type with
  | .node => some (.node item)
  | .way => some (.way item)
  | .relation => some (.relation item)
  | .changeset => some (.changeset item)
  | _ => none

/-- The concrete shape of a tag, the two relation member list variants being
one shape; the sentinel has none. -/
def shape_of : item_type → Option Shape
  | .undefined => none
  | .node => some .Node
  | .way => some .Way
  | .relation => some .Relation
  | .changeset => some .Changeset
  | .tag_list => some .TagList
  | .way_node_list => some .WayNodeList
  | .relation_member_list => some .RelationMemberList
  | .relation_member_list_with_full_members => some .RelationMemberList

/-- The entry point of a visitor that a record is routed to: the overload for
its shape on a callable, the method named for its tag on a handler. -/
def entry_point : Visitor → Item → Option Call
  | .callable, item => (shape_of item.type).map (fun s => .call_operator s item)
  | .handler, item => named_method item

/-- The supported tag set of a visitor shape: every tag but the sentinel for a
callable, the four entity tags for a handler on a generic reference. -/
def supported : Visitor → item_type → Bool
  | .callable, t => decide (t ≠ .undefined)
  | .handler, t => is_entity t

/-- The hook that opens a group of records of an entity tag. -/
def before_hook : item_type → Option Call
  | .node => some .before_nodes
  | .way => some .before_ways
  | .relation => some .before_relations
  | .changeset => some .before_changesets
  | _ => none

/-- The hook that closes a group of records of an entity tag. -/
def after_hook : item_type → Option Call
  | .node => some .after_nodes
  | .way => some .after_ways
  | .relation => some .after_relations
  | .changeset => some .after_changesets
  | _ => none

/-- The maximal runs of consecutive records with equal tag, in stream order. -/
def runs : List Item → List (List Item)
  | [] => []
  | item :: rest =>
    match runs rest with
    | [] => [[item]]
    | [] :: gs => [item] :: gs
    | (next :: g) :: gs =>
      if item.type = next.type then (item :: next :: g) :: gs
      else [item] :: (next :: g) :: gs

/-- The calls a handler receives for one run: the before hook of the run's
tag, one item call per record, the after hook of the run's tag. -/
def run_calls : List Item → List Call
  | [] => []
  | item :: rest =>
    (before_hook item.type).toList ++ (item :: rest).filterMap named_method
      ++ (after_hook item.type).toList

/-- The calls a handler inside a group of tag `t` still receives, before
`done`, for the records to come: the rest of the current run (if the stream
goes on with tag `t`), the after hook of `t`, and the calls of the later runs. -/
def resume (t : item_type) (stream : List Item) : List Call :=
  match runs stream with
  | [] => (after_hook t).toList
  | [] :: gs => (after_hook t).toList ++ gs.flatMap run_calls
  | (next :: g) :: gs =>
    if next.type = t then
      (next :: g).filterMap named_method ++ (after_hook t).toList ++ gs.flatMap run_calls
    else (after_hook t).toList ++ ((next :: g) :: gs).flatMap run_calls

/-- The lifecycle of a handler over a stream: `init`, the calls of every run
in stream order, `done`. -/
def lifecycle (stream : List Item) : List Call :=
  Call.init :: (runs stream).flatMap run_calls ++ [Call.done]

/-- The calls of a group transition on the tag of the group left: `init` at
the start of the stream, the after hook of an entity tag, nothing for a
composite tag. -/
def closing : item_type → List Call
  | .undefined => [Call.init]
  | t => (after_hook t).toList

/-- The calls of a group transition on the tag of the group entered: `done` at
the end of the stream, the before hook of an entity tag, nothing for a
composite tag. -/
def opening : item_type → List Call
  | .undefined => [Call.done]
  | t => (before_hook t).toList

/-- The calls one visitor receives at a group transition: none for a callable;
for a handler the call for the previous tag, then the call for the current
tag. -/
def transition_calls : Visitor → item_type → item_type → List Call
  | .callable, _, _ => []
  | .handler, last, current => closing last ++ opening current

/-- Fan-out of the calls `f v` over a list of visitors, in list order, the
first visitor of the list standing at position `idx` of the pack. -/
def fan_out (f : Visitor → List Call) : Nat → List Visitor → List Event
  | _, [] => []
  | idx, v :: more => (f v).map (Event.mk idx) ++ fan_out f (idx + 1) more

/-- The item calls for one record: its entry point on each visitor, in list
order. -/
def item_block (visitors : List Visitor) (item : Item) : List Event :=
  fan_out (fun v => (entry_point v item).toList) 0 visitors

/-- The hook calls for one group transition: the transition calls of each
visitor, in list order. -/
def transition_block (visitors : List Visitor) (last current : item_type) : List Event :=
  fan_out (fun v => transition_calls v last current) 0 visitors

/-- The blocks of calls of the driver loop over a stream, from a given previous
tag: for each record, the transition block if its tag differs from the previous
tag, then its item block. -/
def open_blocks (visitors : List Visitor) : item_type → List Item → List (List Event)
  | _, [] => []
  | last, item :: rest =>
    (if last ≠ item.type then [transition_block visitors last item.type] else [])
      ++ [item_block visitors item] ++ open_blocks visitors item.type rest

/-- The previous tag after the driver loop has gone over a stream. -/
def last_tag : item_type → List Item → item_type
  | last, [] => last
  | _, item :: rest => last_tag item.type rest

/-- The blocks of calls of a whole run of the driver: the blocks of the loop,
then the terminal transition to `undefined`. -/
def blocks (visitors : List Visitor) (last : item_type) (stream : List Item) :
    List (List Event) :=
  open_blocks visitors last stream
    ++ [transition_block visitors (last_tag last stream) .undefined]

/-- The calls received by the visitor at position `i`, in trace order. -/
def calls_of (i : Nat) (trace : List Event) : List Call :=
  (trace.filter (fun e => decide (e.visitor = i))).map Event.call

/-- The tags a reference of static type `osmium::Object` can carry: node, way,
relation. -/
def is_object : item_type → Bool
  | .node | .way | .relation => true
  | _ => false

/-- Whether a call is an item call, as opposed to a lifecycle hook. -/
def is_item_call : Call → Bool
  | .call_operator _ _ | .node _ | .way _ | .relation _ | .changeset _ => true
  | _ => false

end spec

/-! ## Auxiliary predicates -/

/-- An outcome whose exception, if any, is `std::runtime_error("unknown type")`. -/
def Outcome.only_unknown_type (o : Outcome) : Prop :=
  o.thrown = none ∨ o.thrown = some ⟨"unknown type"⟩

/-- A call that is neither `init` nor `done`. -/
def Call.neutral (c : Call) : Prop := c ≠ .init ∧ c ≠ .done

/-- A sequence of calls made of calls other than `init` and `done`, followed
by at most one `done`, which is there if `closed` holds. -/
def lifecycle_tail (calls : List Call) (closed : Prop) : Prop :=
  ∃ M b, calls = M ++ b ∧ (∀ c ∈ M, c.neutral) ∧ (b = [] ∨ b = [Call.done])
    ∧ (closed → b = [Call.done])

end osmium

namespace osmium

open visitor.detail

/-! ## Single-item dispatch -/

@[simp] theorem Outcome.andThen_ok (t : List Event) (b : Outcome) :
    (Outcome.mk t none).andThen b = ⟨t ++ b.trace, b.thrown⟩ := rfl

@[simp] theorem Outcome.andThen_thrown (t : List Event) (e : runtime_error) (b : Outcome) :
    (Outcome.mk t (some e)).andThen b = ⟨t, some e⟩ := rfl

/-- C2: over the empty stream, `apply` with a handler calls `init` and then
`done` on it, makes no other call, and returns normally. -/
theorem apply_empty_stream :
    apply [] .handler [] = ⟨[⟨0, .init⟩, ⟨0, .done⟩], none⟩ := rfl

/-- C3: a record with an entity tag, dispatched by `apply_item` to a handler,
gets exactly one call, of the method named for its tag and on that same
record, and the dispatch returns normally. -/
theorem apply_item_handler_entity (item : Item) (h : spec.is_entity item.type = true) :
    ∃ c, spec.named_method item = some c ∧ (c = .node item ∨ c = .way item
        ∨ c = .relation item ∨ c = .changeset item) ∧
      apply_item item .handler [] = ⟨[⟨0, c⟩], none⟩ := by
  obtain ⟨t, a⟩ := item
  cases t <;> simp [spec.is_entity] at h <;>
    simp [spec.named_method, apply_item, apply_item_recurse_pack, apply_item_recurse,
      switch_on_type, Visitor.is_base_of_Handler, Outcome.invoke]

theorem apply_item_handler_entity_witness :
    ∃ c, spec.named_method ⟨.way, 7⟩ = some c ∧ (c = .node ⟨.way, 7⟩ ∨ c = .way ⟨.way, 7⟩
        ∨ c = .relation ⟨.way, 7⟩ ∨ c = .changeset ⟨.way, 7⟩) ∧
      apply_item ⟨.way, 7⟩ .handler [] = ⟨[⟨0, c⟩], none⟩ :=
  apply_item_handler_entity ⟨.way, 7⟩ rfl

/-- C4: a record with a composite tag, dispatched to a callable, gets exactly
one call, of the overload for its concrete shape (TagList, WayNodeList or
RelationMemberList), and the dispatch returns normally; dispatched to a
handler it gets no call and the dispatch throws "unknown type". -/
theorem apply_item_composite (item : Item) (h : spec.is_composite item.type = true) :
    (∃ s, spec.shape_of item.type = some s ∧
        (s = .TagList ∨ s = .WayNodeList ∨ s = .RelationMemberList) ∧
        apply_item item .callable [] = ⟨[⟨0, .call_operator s item⟩], none⟩) ∧
      apply_item item .handler [] = ⟨[], some ⟨"unknown type"⟩⟩ := by
  obtain ⟨t, a⟩ := item
  cases t <;> simp [spec.is_composite] at h <;>
    simp [spec.shape_of, apply_item, apply_item_recurse_pack, apply_item_recurse,
      switch_on_type, Visitor.is_base_of_Handler, Outcome.invoke, Outcome.throw_unknown_type]

theorem apply_item_composite_witness :
    (∃ s, spec.shape_of item_type.way_node_list = some s ∧
        (s = .TagList ∨ s = .WayNodeList ∨ s = .RelationMemberList) ∧
        apply_item ⟨.way_node_list, 3⟩ .callable []
          = ⟨[⟨0, .call_operator s ⟨.way_node_list, 3⟩⟩], none⟩) ∧
      apply_item ⟨.way_node_list, 3⟩ .handler [] = ⟨[], some ⟨"unknown type"⟩⟩ :=
  apply_item_composite ⟨.way_node_list, 3⟩ rfl

/-- C5: for a callable, a record dispatched with tag `relation_member_list` and
the record dispatched with tag `relation_member_list_with_full_members` both
get exactly one call, of the same overload (RelationMemberList), on the record
dispatched. -/
theorem apply_item_relation_member_list_variants (addr : Nat) :
    apply_item ⟨.relation_member_list, addr⟩ .callable []
        = ⟨[⟨0, .call_operator .RelationMemberList ⟨.relation_member_list, addr⟩⟩], none⟩ ∧
      apply_item ⟨.relation_member_list_with_full_members, addr⟩ .callable []
        = ⟨[⟨0, .call_operator .RelationMemberList
              ⟨.relation_member_list_with_full_members, addr⟩⟩], none⟩ :=
  ⟨rfl, rfl⟩

/-- C8: dispatching one record to one visitor either makes exactly one call
and returns normally, or makes no call and throws "unknown type"; it returns
normally exactly when the tag is in the supported set of the visitor shape, and
the call made is then the entry point for the tag; the undefined tag throws for
both visitor shapes. -/
theorem apply_item_single_outcome (item : Item) (v : Visitor) :
    ((∃ c, spec.entry_point v item = some c ∧ apply_item item v [] = ⟨[⟨0, c⟩], none⟩)
        ∧ spec.supported v item.type = true
      ∨ apply_item item v [] = ⟨[], some ⟨"unknown type"⟩⟩
        ∧ spec.supported v item.type = false) ∧
    ((apply_item item v []).thrown = none ↔ spec.supported v item.type = true) ∧
    (item.type = .undefined → apply_item item v [] = ⟨[], some ⟨"unknown type"⟩⟩) := by
  obtain ⟨t, a⟩ := item
  cases v <;> cases t <;>
    simp [spec.entry_point, spec.shape_of, spec.named_method, spec.supported, spec.is_entity,
      apply_item, apply_item_recurse_pack, apply_item_recurse,
      switch_on_type, Visitor.is_base_of_Handler, Outcome.invoke, Outcome.throw_unknown_type]

theorem apply_item_single_outcome_witness :
    apply_item ⟨.undefined, 0⟩ .callable [] = ⟨[], some ⟨"unknown type"⟩⟩ :=
  (apply_item_single_outcome ⟨.undefined, 0⟩ .callable).2.2 rfl

/-! ## The failure value -/

theorem Outcome.only_unknown_type_andThen {a b : Outcome}
    (ha : a.only_unknown_type) (hb : b.only_unknown_type) :
    (a.andThen b).only_unknown_type := by
  obtain ⟨ta, _ | ea⟩ := a
  · simpa [Outcome.only_unknown_type] using hb
  · simpa [Outcome.only_unknown_type] using ha

theorem switch_on_type_only_unknown_type (idx : Nat) (item : Item) (tag : Bool) :
    (switch_on_type idx item tag).only_unknown_type := by
  obtain ⟨t, a⟩ := item
  cases tag <;> cases t <;>
    simp [switch_on_type, Outcome.only_unknown_type, Outcome.invoke, Outcome.throw_unknown_type]

theorem apply_item_recurse_pack_only_unknown_type (item : Item) (more : List Visitor) :
    ∀ (idx : Nat) (v : Visitor), (apply_item_recurse_pack item idx v more).only_unknown_type := by
  induction more with
  | nil => intro idx v; exact switch_on_type_only_unknown_type _ _ _
  | cons next more ih =>
    intro idx v
    exact Outcome.only_unknown_type_andThen (switch_on_type_only_unknown_type _ _ _) (ih _ _)

theorem switch_on_type_before_after_thrown (last current : item_type) (idx : Nat) (tag : Bool) :
    (switch_on_type_before_after last current idx tag).thrown = none := by
  cases tag <;> cases last <;> cases current <;> rfl

theorem Outcome.andThen_thrown_none {a b : Outcome} (ha : a.thrown = none)
    (hb : b.thrown = none) : (a.andThen b).thrown = none := by
  obtain ⟨ta, _ | ea⟩ := a
  · simpa using hb
  · simp at ha

theorem apply_before_and_after_recurse_pack_thrown (last current : item_type)
    (more : List Visitor) : ∀ (idx : Nat) (v : Visitor),
      (apply_before_and_after_recurse_pack last current idx v more).thrown = none := by
  induction more with
  | nil => intro idx v; exact switch_on_type_before_after_thrown _ _ _ _
  | cons next more ih =>
    intro idx v
    exact Outcome.andThen_thrown_none (switch_on_type_before_after_thrown _ _ _ _) (ih _ _)

theorem apply_loop_only_unknown_type (v : Visitor) (more : List Visitor) (stream : List Item) :
    ∀ last : item_type, (apply_loop v more last stream).only_unknown_type := by
  induction stream with
  | nil =>
    intro last
    exact Or.inl (apply_before_and_after_recurse_pack_thrown _ _ _ _ _)
  | cons item rest ih =>
    intro last
    refine Outcome.only_unknown_type_andThen
      (Outcome.only_unknown_type_andThen ?_ (apply_item_recurse_pack_only_unknown_type _ _ _ _))
      (ih _)
    by_cases h : last = item.type
    · simp [h, Outcome.only_unknown_type, Outcome.skip]
    · simpa [h] using Or.inl (apply_before_and_after_recurse_pack_thrown _ _ _ _ _)

/-- C9, as the code has it: `apply_item` and `apply` either return normally or
throw the one value `std::runtime_error("unknown type")`, whatever the record
and its tag; the failure value names no tag. -/
theorem thrown_is_unknown_type (stream : List Item) (item : Item) (v : Visitor)
    (more : List Visitor) :
    ((apply_item item v more).thrown = none
      ∨ (apply_item item v more).thrown = some ⟨"unknown type"⟩) ∧
    ((apply stream v more).thrown = none
      ∨ (apply stream v more).thrown = some ⟨"unknown type"⟩) :=
  ⟨apply_item_recurse_pack_only_unknown_type item more 0 v,
    apply_loop_only_unknown_type v more stream .undefined⟩

/-- C9, as stated, fails: the records `tag_list` and `way_node_list` dispatched
to a handler throw one and the same value, so no function of the failure value
recovers the offending tag. -/
theorem thrown_does_not_carry_tag :
    (apply_item ⟨.tag_list, 0⟩ .handler []).thrown
        = (apply_item ⟨.way_node_list, 0⟩ .handler []).thrown ∧
      (apply_item ⟨.tag_list, 0⟩ .handler []).thrown ≠ none ∧
      ¬ ∃ recover : runtime_error → item_type, ∀ (item : Item) (v : Visitor)
          (more : List Visitor) (e : runtime_error),
          (apply_item item v more).thrown = some e → recover e = item.type := by
  refine ⟨rfl, by decide, ?_⟩
  rintro ⟨recover, h⟩
  have h1 := h ⟨.tag_list, 0⟩ .handler [] ⟨"unknown type"⟩ rfl
  have h2 := h ⟨.way_node_list, 0⟩ .handler [] ⟨"unknown type"⟩ rfl
  rw [h1] at h2
  exact absurd h2 (by decide)

/-! ## One handler over a stream of entity records -/

theorem transition_single_handler (last current : item_type) :
    apply_before_and_after_recurse_pack last current 0 .handler []
      = ⟨(spec.transition_calls .handler last current).map (Event.mk 0), none⟩ := by
  cases last <;> cases current <;> rfl

theorem item_single_handler (item : Item) (h : spec.is_entity item.type = true) :
    apply_item_recurse_pack item 0 .handler []
      = ⟨((spec.named_method item).toList).map (Event.mk 0), none⟩ := by
  obtain ⟨t, a⟩ := item
  cases t <;> simp [spec.is_entity] at h <;> rfl

theorem spec.runs_eq_nil {stream : List Item} (h : spec.runs stream = []) : stream = [] := by
  cases stream with
  | nil => rfl
  | cons item rest =>
    simp only [spec.runs] at h
    split at h
    · simp at h
    · simp at h
    · split at h <;> simp at h

theorem spec.nil_not_mem_runs (stream : List Item) : [] ∉ spec.runs stream := by
  induction stream with
  | nil => simp [spec.runs]
  | cons item rest ih =>
    simp only [spec.runs]
    split
    · simp
    · rename_i gs h
      rw [h] at ih
      simp at ih
    · rename_i next g gs h
      rw [h] at ih
      split <;> simp_all

theorem spec.flatten_runs (stream : List Item) : (spec.runs stream).flatten = stream := by
  induction stream with
  | nil => simp [spec.runs]
  | cons item rest ih =>
    simp only [spec.runs]
    split
    · rename_i h
      simp [spec.runs_eq_nil h]
    · rename_i gs h
      rw [h] at ih
      simpa using ih
    · rename_i next g gs h
      rw [h] at ih
      split <;> simpa using ih

theorem spec.runs_same_tag (stream : List Item) :
    ∀ run ∈ spec.runs stream, ∀ a ∈ run, ∀ b ∈ run, a.type = b.type := by
  induction stream with
  | nil => simp [spec.runs]
  | cons item rest ih =>
    simp only [spec.runs]
    split
    · simp
    · rename_i gs h
      rw [h] at ih
      intro run hrun
      simp only [List.mem_cons] at hrun
      rcases hrun with rfl | hrun
      · simp
      · exact ih run (List.mem_cons_of_mem _ hrun)
    · rename_i next g gs h
      rw [h] at ih
      have hg := ih (next :: g) (List.mem_cons_self _ _)
      split
      · rename_i heq
        intro run hrun
        simp only [List.mem_cons] at hrun
        rcases hrun with rfl | hrun
        · intro a ha b hb
          have key : ∀ c ∈ item :: next :: g, c.type = next.type := by
            intro c hc
            simp only [List.mem_cons] at hc
            rcases hc with rfl | hc
            · exact heq
            · exact hg c (by simpa using hc) next (List.mem_cons_self _ _)
          rw [key a ha, key b hb]
        · exact ih run (List.mem_cons_of_mem _ hrun)
      · intro run hrun
        simp only [List.mem_cons] at hrun
        rcases hrun with rfl | rfl | hrun
        · simp
        · exact hg
        · exact ih run (List.mem_cons_of_mem _ hrun)

/-- Consecutive runs have different tags: the runs are maximal. -/
theorem spec.runs_maximal (stream : List Item) :
    (spec.runs stream).Chain' (fun g₁ g₂ => ∀ a ∈ g₁, ∀ b ∈ g₂, a.type ≠ b.type) := by
  induction stream with
  | nil => simp [spec.runs]
  | cons item rest ih =>
    have hsame := spec.runs_same_tag rest
    simp only [spec.runs]
    split
    · simp
    · rename_i gs h
      exact absurd (h ▸ List.mem_cons_self _ _) (spec.nil_not_mem_runs rest)
    · rename_i next g gs h
      rw [h] at ih hsame
      split
      · rename_i heq
        cases gs with
        | nil => simp
        | cons g₂ gs =>
          rw [List.chain'_cons] at ih ⊢
          refine ⟨?_, ih.2⟩
          intro a ha b hb
          simp only [List.mem_cons] at ha
          rcases ha with rfl | ha
          · rw [heq]; exact ih.1 next (List.mem_cons_self _ _) b hb
          · exact ih.1 a (by simpa using ha) b hb
      · rename_i hne
        rw [List.chain'_cons]
        refine ⟨?_, ih⟩
        intro a ha b hb
        simp only [List.mem_singleton] at ha
        subst ha
        rw [hsame (next :: g) (List.mem_cons_self _ _) b hb next (List.mem_cons_self _ _)]
        exact hne

theorem filterMap_cons_toList {α β : Type} (f : α → Option β) (a : α) (l : List α) :
    (a :: l).filterMap f = (f a).toList ++ l.filterMap f := by
  cases h : f a <;> simp [List.filterMap_cons, h]

theorem spec.flatMap_runs_cons (item : Item) (rest : List Item) :
    (spec.runs (item :: rest)).flatMap spec.run_calls
      = (spec.before_hook item.type).toList ++ (spec.named_method item).toList
          ++ spec.resume item.type rest := by
  have hnil := spec.nil_not_mem_runs rest
  simp only [spec.runs, spec.resume]
  split
  · simp [spec.run_calls, filterMap_cons_toList]
  · rename_i gs h
    rw [h] at hnil
    simp at hnil
  · rename_i next g gs h
    by_cases heq : item.type = next.type
    · simp [heq, spec.run_calls, filterMap_cons_toList]
    · have heq' : ¬ next.type = item.type := fun h => heq h.symm
      simp [heq, heq', spec.run_calls, filterMap_cons_toList]

theorem spec.resume_cons (t : item_type) (item : Item) (rest : List Item) :
    spec.resume t (item :: rest)
      = if item.type = t then (spec.named_method item).toList ++ spec.resume t rest
        else (spec.after_hook t).toList ++ (spec.before_hook item.type).toList
          ++ (spec.named_method item).toList ++ spec.resume item.type rest := by
  have hnil := spec.nil_not_mem_runs rest
  by_cases ht : item.type = t
  · subst ht
    simp only [spec.runs, spec.resume, if_true]
    split
    · rename_i h
      split at h
      · rename_i h'
        simp at h
      · rename_i gs h'
        rw [h'] at hnil
        simp at hnil
      · split at h <;> simp at h
    · rename_i gs h
      split at h
      · simp at h
      · rename_i gs' h'
        rw [h'] at hnil
        simp at hnil
      · split at h <;> simp at h
    · rename_i first g gs h
      split at h
      · rename_i h'
        simp only [List.cons.injEq] at h
        obtain ⟨⟨rfl, rfl⟩, rfl⟩ := h
        simp [h', filterMap_cons_toList]
      · rename_i gs' h'
        rw [h'] at hnil
        simp at hnil
      · rename_i next g' gs' h'
        split at h
        · rename_i heq
          simp only [List.cons.injEq] at h
          obtain ⟨⟨rfl, rfl⟩, rfl⟩ := h
          simp [h', heq.symm, filterMap_cons_toList]
        · rename_i hne
          simp only [List.cons.injEq] at h
          obtain ⟨⟨rfl, rfl⟩, rfl⟩ := h
          have hne' : ¬ next.type = item.type := fun h => hne h.symm
          simp [h', hne', filterMap_cons_toList]
  · rw [if_neg ht, List.append_assoc, List.append_assoc, ← List.append_assoc _ _ (spec.resume _ _),
      ← spec.flatMap_runs_cons]
    simp only [spec.resume]
    split
    · rename_i h
      simp [h]
    · rename_i gs h
      have := spec.nil_not_mem_runs (item :: rest)
      rw [h] at this
      simp at this
    · rename_i first g gs h
      have hfirst : first = item := by
        simp only [spec.runs] at h
        split at h
        · simp only [List.cons.injEq] at h
          exact h.1.1.symm
        · simp only [List.cons.injEq] at h
          exact h.1.1.symm
        · split at h <;> simp only [List.cons.injEq] at h <;> exact h.1.1.symm
      subst hfirst
      simp [ht, h]

theorem apply_loop_handler_entity (stream : List Item)
    (hent : ∀ item ∈ stream, spec.is_entity item.type = true) :
    ∀ t : item_type, spec.is_entity t = true →
      apply_loop .handler [] t stream
        = ⟨(spec.resume t stream ++ [Call.done]).map (Event.mk 0), none⟩ := by
  induction stream with
  | nil =>
    intro t ht
    simp only [apply_loop, transition_single_handler]
    cases t <;> simp [spec.is_entity] at ht <;> rfl
  | cons item rest ih =>
    intro t ht
    have hitem := hent item (List.mem_cons_self _ _)
    have hrest := ih (fun r hr => hent r (List.mem_cons_of_mem _ hr))
    rw [spec.resume_cons]
    simp only [apply_loop, transition_single_handler, item_single_handler item hitem]
    by_cases h : t = item.type
    · subst h
      simp [Outcome.skip, hrest _ hitem]
    · have h' : ¬ item.type = t := fun e => h e.symm
      have hopen : spec.opening item.type = (spec.before_hook item.type).toList := by
        revert hitem; cases item.type <;> simp [spec.is_entity, spec.opening]
      have hclose : spec.closing t = (spec.after_hook t).toList := by
        revert ht; cases t <;> simp [spec.is_entity, spec.closing]
      simp [h, h', hrest _ hitem, spec.transition_calls, hopen, hclose]

/-- C1: over a non-empty stream of entity records, `apply` with one handler
returns normally and calls, in this order: `init`; for each maximal run of
records with equal tag, in stream order, the before hook of the tag, the method
named for the tag once per record of the run in stream order, the after hook of
the tag; and `done`. -/
theorem apply_handler_lifecycle (stream : List Item) (hne : stream ≠ [])
    (hent : ∀ item ∈ stream, spec.is_entity item.type = true) :
    apply stream .handler [] = ⟨(spec.lifecycle stream).map (Event.mk 0), none⟩ := by
  cases stream with
  | nil => exact absurd rfl hne
  | cons item rest =>
    have hitem := hent item (List.mem_cons_self _ _)
    have hrest := apply_loop_handler_entity rest
      (fun r hr => hent r (List.mem_cons_of_mem _ hr)) item.type hitem
    have hopen : spec.opening item.type = (spec.before_hook item.type).toList := by
      revert hitem; cases item.type <;> simp [spec.is_entity, spec.opening]
    have hu : ¬ item_type.undefined = item.type := by
      revert hitem; cases item.type <;> simp [spec.is_entity]
    simp only [apply, apply_loop, transition_single_handler, item_single_handler item hitem,
      spec.lifecycle, spec.flatMap_runs_cons]
    simp [hu, hrest, spec.transition_calls, spec.closing, hopen]

theorem apply_handler_lifecycle_witness :
    ([⟨.node, 0⟩, ⟨.node, 1⟩, ⟨.way, 2⟩, ⟨.relation, 3⟩, ⟨.relation, 4⟩] : List Item) ≠ [] ∧
    (∀ item ∈ ([⟨.node, 0⟩, ⟨.node, 1⟩, ⟨.way, 2⟩, ⟨.relation, 3⟩, ⟨.relation, 4⟩] : List Item),
      spec.is_entity item.type = true) ∧
    apply [⟨.node, 0⟩, ⟨.node, 1⟩, ⟨.way, 2⟩, ⟨.relation, 3⟩, ⟨.relation, 4⟩] .handler []
      = ⟨[⟨0, .init⟩,
          ⟨0, .before_nodes⟩, ⟨0, .node ⟨.node, 0⟩⟩, ⟨0, .node ⟨.node, 1⟩⟩, ⟨0, .after_nodes⟩,
          ⟨0, .before_ways⟩, ⟨0, .way ⟨.way, 2⟩⟩, ⟨0, .after_ways⟩,
          ⟨0, .before_relations⟩, ⟨0, .relation ⟨.relation, 3⟩⟩,
          ⟨0, .relation ⟨.relation, 4⟩⟩, ⟨0, .after_relations⟩,
          ⟨0, .done⟩], none⟩ ∧
    apply [⟨.node, 0⟩, ⟨.way, 1⟩, ⟨.node, 2⟩] .handler []
      = ⟨[⟨0, .init⟩,
          ⟨0, .before_nodes⟩, ⟨0, .node ⟨.node, 0⟩⟩, ⟨0, .after_nodes⟩,
          ⟨0, .before_ways⟩, ⟨0, .way ⟨.way, 1⟩⟩, ⟨0, .after_ways⟩,
          ⟨0, .before_nodes⟩, ⟨0, .node ⟨.node, 2⟩⟩, ⟨0, .after_nodes⟩,
          ⟨0, .done⟩], none⟩ :=
  ⟨by decide, by decide,
    apply_handler_lifecycle
      [⟨.node, 0⟩, ⟨.node, 1⟩, ⟨.way, 2⟩, ⟨.relation, 3⟩, ⟨.relation, 4⟩] (by decide) (by decide),
    apply_handler_lifecycle [⟨.node, 0⟩, ⟨.way, 1⟩, ⟨.node, 2⟩] (by decide) (by decide)⟩

/-! ## Fan-out over the visitor pack -/

theorem Outcome.andThen_assoc (a b c : Outcome) :
    (a.andThen b).andThen c = a.andThen (b.andThen c) := by
  obtain ⟨ta, _ | ea⟩ := a
  · obtain ⟨tb, _ | eb⟩ := b
    · simp
    · simp
  · simp

theorem switch_on_type_supported (idx : Nat) (item : Item) (v : Visitor)
    (h : spec.supported v item.type = true) :
    switch_on_type idx item v.is_base_of_Handler
      = ⟨((spec.entry_point v item).toList).map (Event.mk idx), none⟩ := by
  obtain ⟨t, a⟩ := item
  cases v <;> cases t <;> simp [spec.supported, spec.is_entity] at h <;> rfl

theorem switch_on_type_unsupported (idx : Nat) (item : Item) (v : Visitor)
    (h : spec.supported v item.type = false) :
    switch_on_type idx item v.is_base_of_Handler = ⟨[], some ⟨"unknown type"⟩⟩ := by
  obtain ⟨t, a⟩ := item
  cases v <;> cases t <;> simp [spec.supported, spec.is_entity] at h <;> rfl

theorem spec.entry_point_isSome (v : Visitor) (item : Item)
    (h : spec.supported v item.type = true) :
    ∃ c, spec.entry_point v item = some c ∧ spec.is_item_call c = true := by
  obtain ⟨t, a⟩ := item
  cases v <;> cases t <;> simp [spec.supported, spec.is_entity] at h <;>
    simp [spec.entry_point, spec.shape_of, spec.named_method, spec.is_item_call]

theorem switch_on_type_before_after_eq (last current : item_type) (idx : Nat) (v : Visitor) :
    switch_on_type_before_after last current idx v.is_base_of_Handler
      = ⟨(spec.transition_calls v last current).map (Event.mk idx), none⟩ := by
  cases v <;> cases last <;> cases current <;> rfl

theorem apply_before_and_after_recurse_pack_eq (last current : item_type)
    (more : List Visitor) : ∀ (idx : Nat) (v : Visitor),
      apply_before_and_after_recurse_pack last current idx v more
        = ⟨spec.fan_out (fun w => spec.transition_calls w last current) idx (v :: more), none⟩ := by
  induction more with
  | nil =>
    intro idx v
    simp [apply_before_and_after_recurse_pack, apply_before_and_after_recurse,
      switch_on_type_before_after_eq, spec.fan_out]
  | cons next more ih =>
    intro idx v
    simp only [apply_before_and_after_recurse_pack, apply_before_and_after_recurse,
      switch_on_type_before_after_eq, ih, Outcome.andThen_ok]
    simp [spec.fan_out]

theorem apply_item_recurse_pack_supported (item : Item) (more : List Visitor) :
    ∀ (idx : Nat) (v : Visitor), (∀ w ∈ v :: more, spec.supported w item.type = true) →
      apply_item_recurse_pack item idx v more
        = ⟨spec.fan_out (fun w => (spec.entry_point w item).toList) idx (v :: more), none⟩ := by
  induction more with
  | nil =>
    intro idx v h
    simp [apply_item_recurse_pack, apply_item_recurse,
      switch_on_type_supported idx item v (h v (List.mem_cons_self _ _)), spec.fan_out]
  | cons next more ih =>
    intro idx v h
    simp only [apply_item_recurse_pack, apply_item_recurse,
      switch_on_type_supported idx item v (h v (List.mem_cons_self _ _)),
      ih (idx + 1) next (fun w hw => h w (List.mem_cons_of_mem _ hw)), Outcome.andThen_ok]
    simp [spec.fan_out]

theorem apply_item_recurse_pack_thrown_none (item : Item) (more : List Visitor) :
    ∀ (idx : Nat) (v : Visitor), (apply_item_recurse_pack item idx v more).thrown = none →
      ∀ w ∈ v :: more, spec.supported w item.type = true := by
  induction more with
  | nil =>
    intro idx v h w hw
    simp only [List.mem_singleton] at hw
    subst hw
    by_contra hs
    simp only [Bool.not_eq_true] at hs
    simp [apply_item_recurse_pack, apply_item_recurse, switch_on_type_unsupported idx item w hs] at h
  | cons next more ih =>
    intro idx v h w hw
    have hv : spec.supported v item.type = true := by
      by_contra hs
      simp only [Bool.not_eq_true] at hs
      simp [apply_item_recurse_pack, apply_item_recurse,
        switch_on_type_unsupported idx item v hs] at h
    simp only [apply_item_recurse_pack, apply_item_recurse,
      switch_on_type_supported idx item v hv, Outcome.andThen_ok] at h
    rcases List.mem_cons.mp hw with rfl | hw
    · exact hv
    · exact ih (idx + 1) next h w hw

theorem Outcome.thrown_none_of_andThen {a b : Outcome} (h : (a.andThen b).thrown = none) :
    a.thrown = none ∧ b.thrown = none := by
  obtain ⟨ta, _ | ea⟩ := a
  · simpa using h
  · simp at h

theorem spec.fan_out_sorted (f : Visitor → List Call) (visitors : List Visitor) :
    ∀ idx : Nat, (∀ e ∈ spec.fan_out f idx visitors, idx ≤ e.visitor) ∧
      ((spec.fan_out f idx visitors).map Event.visitor).Sorted (· ≤ ·) := by
  induction visitors with
  | nil => intro idx; simp [spec.fan_out]
  | cons v more ih =>
    intro idx
    obtain ⟨hge, hsorted⟩ := ih (idx + 1)
    constructor
    · intro e he
      simp only [spec.fan_out, List.mem_append, List.mem_map] at he
      rcases he with ⟨c, _, rfl⟩ | he
      · exact Nat.le_refl _
      · exact Nat.le_of_succ_le (hge e he)
    · simp only [spec.fan_out, List.map_append, List.map_map, List.Sorted]
      rw [List.pairwise_append]
      refine ⟨?_, hsorted, ?_⟩
      · rw [List.pairwise_map]
        exact List.pairwise_of_forall (fun _ _ => Nat.le_refl _)
      · intro a ha b hb
        simp only [List.mem_map, Function.comp] at ha hb
        obtain ⟨c, _, rfl⟩ := ha
        obtain ⟨e, he, rfl⟩ := hb
        exact Nat.le_of_succ_le (hge e he)

theorem spec.fan_out_visitors (f : Visitor → List Call) (visitors : List Visitor)
    (hf : ∀ w ∈ visitors, ∃ c, f w = [c]) :
    ∀ idx : Nat, (spec.fan_out f idx visitors).map Event.visitor
      = List.range' idx visitors.length := by
  induction visitors with
  | nil => intro idx; simp [spec.fan_out]
  | cons v more ih =>
    intro idx
    obtain ⟨c, hc⟩ := hf v (List.mem_cons_self _ _)
    simp [spec.fan_out, hc, ih (fun w hw => hf w (List.mem_cons_of_mem _ hw)), List.range'_succ]

theorem spec.calls_of_append (i : Nat) (a b : List Event) :
    spec.calls_of i (a ++ b) = spec.calls_of i a ++ spec.calls_of i b := by
  simp [spec.calls_of]

theorem spec.calls_of_map_mk (i idx : Nat) (l : List Call) :
    spec.calls_of i (l.map (Event.mk idx)) = if idx = i then l else [] := by
  by_cases h : idx = i
  · subst h
    simp [spec.calls_of, List.filter_map, Function.comp_def]
  · simp [spec.calls_of, List.filter_map, Function.comp_def, h]

theorem spec.calls_of_fan_out_lt (f : Visitor → List Call) (visitors : List Visitor) :
    ∀ idx i : Nat, i < idx → spec.calls_of i (spec.fan_out f idx visitors) = [] := by
  induction visitors with
  | nil => intro idx i _; simp [spec.fan_out, spec.calls_of]
  | cons v more ih =>
    intro idx i hi
    have hne : ¬ idx = i := by omega
    simp [spec.fan_out, spec.calls_of_append, spec.calls_of_map_mk, hne,
      ih (idx + 1) i (by omega)]

theorem spec.calls_of_fan_out (f : Visitor → List Call) (visitors : List Visitor) :
    ∀ (idx i : Nat) (k : Visitor), idx ≤ i → visitors[i - idx]? = some k →
      spec.calls_of i (spec.fan_out f idx visitors) = f k := by
  induction visitors with
  | nil => intro idx i k _ h; simp at h
  | cons v more ih =>
    intro idx i k hi h
    by_cases heq : idx = i
    · subst heq
      simp only [Nat.sub_self, List.getElem?_cons_zero, Option.some.injEq] at h
      subst h
      simp [spec.fan_out, spec.calls_of_append, spec.calls_of_map_mk,
        spec.calls_of_fan_out_lt f more (idx + 1) idx (by omega)]
    · have hlt : idx + 1 ≤ i := by omega
      have hsub : i - idx = (i - (idx + 1)) + 1 := by omega
      rw [hsub, List.getElem?_cons_succ] at h
      simp [spec.fan_out, spec.calls_of_append, spec.calls_of_map_mk, heq,
        ih (idx + 1) i k hlt h]

/-! ## The driver loop -/

theorem apply_loop_append (v : Visitor) (more : List Visitor) (pre : List Item)
    (hpre : ∀ item ∈ pre, ∀ w ∈ v :: more, spec.supported w item.type = true) :
    ∀ (last : item_type) (s : List Item),
      apply_loop v more last (pre ++ s)
        = (Outcome.mk (spec.open_blocks (v :: more) last pre).flatten none).andThen
            (apply_loop v more (spec.last_tag last pre) s) := by
  induction pre with
  | nil => intro last s; simp [spec.open_blocks, spec.last_tag]
  | cons item rest ih =>
    intro last s
    have hitem := hpre item (List.mem_cons_self _ _)
    have hrest := ih (fun r hr => hpre r (List.mem_cons_of_mem _ hr))
    have hlast : (if last ≠ item.type then item.type else last) = item.type := by
      by_cases h : last = item.type <;> simp [h]
    simp only [List.cons_append, apply_loop, hlast, hrest,
      apply_before_and_after_recurse_pack_eq, apply_item_recurse_pack_supported item more 0 v hitem]
    by_cases h : last = item.type
    · simp [h, hrest, Outcome.skip, spec.open_blocks, spec.last_tag, spec.item_block]
    · simp [h, hrest, spec.open_blocks, spec.last_tag, spec.item_block, spec.transition_block]

theorem apply_loop_supported (v : Visitor) (more : List Visitor) (stream : List Item)
    (h : ∀ item ∈ stream, ∀ w ∈ v :: more, spec.supported w item.type = true)
    (last : item_type) :
    apply_loop v more last stream
      = ⟨(spec.blocks (v :: more) last stream).flatten, none⟩ := by
  have := apply_loop_append v more stream h last []
  simp only [List.append_nil] at this
  rw [this]
  simp [apply_loop, apply_before_and_after_recurse_pack_eq, spec.blocks, spec.transition_block]

theorem apply_loop_thrown_none (v : Visitor) (more : List Visitor) (stream : List Item) :
    ∀ last : item_type, (apply_loop v more last stream).thrown = none →
      ∀ item ∈ stream, ∀ w ∈ v :: more, spec.supported w item.type = true := by
  induction stream with
  | nil => intro last _ item hitem; simp at hitem
  | cons r rest ih =>
    intro last h item hitem
    simp only [apply_loop] at h
    obtain ⟨h1, h2⟩ := Outcome.thrown_none_of_andThen h
    obtain ⟨_, h3⟩ := Outcome.thrown_none_of_andThen h1
    rcases List.mem_cons.mp hitem with rfl | hitem
    · exact apply_item_recurse_pack_thrown_none _ more 0 v h3
    · exact ih _ h2 item hitem

theorem spec.open_blocks_sorted (visitors : List Visitor) (stream : List Item) :
    ∀ last : item_type, ∀ b ∈ spec.open_blocks visitors last stream,
      (b.map Event.visitor).Sorted (· ≤ ·) := by
  induction stream with
  | nil => intro last b hb; simp [spec.open_blocks] at hb
  | cons item rest ih =>
    intro last b hb
    simp only [spec.open_blocks, List.mem_append, List.mem_singleton] at hb
    rcases hb with (hb | rfl) | hb
    · split at hb
      · simp only [List.mem_singleton] at hb
        subst hb
        exact (spec.fan_out_sorted _ _ 0).2
      · simp at hb
    · exact (spec.fan_out_sorted _ _ 0).2
    · exact ih _ b hb

theorem spec.item_block_mem_open_blocks (visitors : List Visitor) (stream : List Item)
    (item : Item) (hitem : item ∈ stream) :
    ∀ last : item_type, spec.item_block visitors item ∈ spec.open_blocks visitors last stream := by
  induction stream with
  | nil => simp at hitem
  | cons r rest ih =>
    intro last
    simp only [spec.open_blocks, List.mem_append, List.mem_singleton]
    rcases List.mem_cons.mp hitem with rfl | hitem
    · exact Or.inl (Or.inr rfl)
    · exact Or.inr (ih hitem _)

/-- C6: on a stream on which no dispatch fails, the trace of `apply` is the
concatenation of its blocks, one per group transition and one per record, in
driver order, each block being the fan-out over the visitors in list order;
the visitor positions within every block are non-decreasing, and the item
block of every record visits the positions 0, 1, ..., n-1 in this order. -/
theorem apply_fan_out_order (stream : List Item) (v : Visitor) (more : List Visitor)
    (h : (apply stream v more).thrown = none) :
    (apply stream v more).trace = (spec.blocks (v :: more) .undefined stream).flatten ∧
    (∀ b ∈ spec.blocks (v :: more) .undefined stream, (b.map Event.visitor).Sorted (· ≤ ·)) ∧
    (∀ item ∈ stream, spec.item_block (v :: more) item ∈ spec.blocks (v :: more) .undefined stream
      ∧ (spec.item_block (v :: more) item).map Event.visitor = List.range (more.length + 1)) := by
  have hs := apply_loop_thrown_none v more stream .undefined h
  refine ⟨?_, ?_, ?_⟩
  · simp only [apply, apply_loop_supported v more stream hs]
  · intro b hb
    simp only [spec.blocks, List.mem_append, List.mem_singleton] at hb
    rcases hb with hb | rfl
    · exact spec.open_blocks_sorted _ _ _ b hb
    · exact (spec.fan_out_sorted _ _ 0).2
  · intro item hitem
    constructor
    · simp only [spec.blocks, List.mem_append]
      exact Or.inl (spec.item_block_mem_open_blocks _ _ item hitem _)
    · rw [List.range_eq_range']
      refine spec.fan_out_visitors _ _ ?_ 0
      intro w hw
      obtain ⟨c, hc, _⟩ := spec.entry_point_isSome w item (hs item hitem w hw)
      exact ⟨c, by simp [hc]⟩

theorem apply_fan_out_order_witness :
    (apply [⟨.node, 0⟩, ⟨.way, 1⟩] .handler [.callable, .handler]).thrown = none ∧
    (apply [⟨.node, 0⟩, ⟨.way, 1⟩] .handler [.callable, .handler]).trace
      = [⟨0, .init⟩, ⟨0, .before_nodes⟩, ⟨2, .init⟩, ⟨2, .before_nodes⟩,
         ⟨0, .node ⟨.node, 0⟩⟩, ⟨1, .call_operator .Node ⟨.node, 0⟩⟩, ⟨2, .node ⟨.node, 0⟩⟩,
         ⟨0, .after_nodes⟩, ⟨0, .before_ways⟩, ⟨2, .after_nodes⟩, ⟨2, .before_ways⟩,
         ⟨0, .way ⟨.way, 1⟩⟩, ⟨1, .call_operator .Way ⟨.way, 1⟩⟩, ⟨2, .way ⟨.way, 1⟩⟩,
         ⟨0, .after_ways⟩, ⟨0, .done⟩, ⟨2, .after_ways⟩, ⟨2, .done⟩] :=
  ⟨rfl, (apply_fan_out_order [⟨.node, 0⟩, ⟨.way, 1⟩] .handler [.callable, .handler] rfl).1⟩

/-! ## Failure inside a fan-out -/

theorem spec.mem_fan_out (f : Visitor → List Call) (visitors : List Visitor) (e : Event) :
    ∀ idx : Nat, e ∈ spec.fan_out f idx visitors → ∃ w ∈ visitors, e.call ∈ f w := by
  induction visitors with
  | nil => intro idx h; simp [spec.fan_out] at h
  | cons v more ih =>
    intro idx h
    simp only [spec.fan_out, List.mem_append, List.mem_map] at h
    rcases h with ⟨c, hc, rfl⟩ | h
    · exact ⟨v, List.mem_cons_self _ _, hc⟩
    · obtain ⟨w, hw, hcall⟩ := ih _ h
      exact ⟨w, List.mem_cons_of_mem _ hw, hcall⟩

theorem spec.supported_ne_undefined {w : Visitor} {t : item_type}
    (h : spec.supported w t = true) : t ≠ .undefined := by
  cases w <;> cases t <;> simp [spec.supported, spec.is_entity] at h <;> simp

theorem spec.done_not_mem_transition_calls (w : Visitor) (last current : item_type)
    (h : current ≠ .undefined) : Call.done ∉ spec.transition_calls w last current := by
  cases w <;> cases last <;> cases current <;>
    simp [spec.transition_calls, spec.closing, spec.opening, spec.after_hook,
      spec.before_hook] at h ⊢

theorem spec.done_not_mem_entry_point (w : Visitor) (item : Item) :
    Call.done ∉ (spec.entry_point w item).toList := by
  obtain ⟨t, a⟩ := item
  cases w <;> cases t <;> simp [spec.entry_point, spec.shape_of, spec.named_method]

theorem spec.done_not_mem_open_blocks (visitors : List Visitor) (w₀ : Visitor)
    (stream : List Item) (h : ∀ item ∈ stream, spec.supported w₀ item.type = true) :
    ∀ last : item_type, ∀ e ∈ (spec.open_blocks visitors last stream).flatten,
      e.call ≠ .done := by
  induction stream with
  | nil => intro last e he; simp [spec.open_blocks] at he
  | cons item rest ih =>
    intro last e he
    have hu := spec.supported_ne_undefined (h item (List.mem_cons_self _ _))
    simp only [spec.open_blocks, List.flatten_append, List.mem_append, List.flatten_cons,
      List.flatten_nil, List.append_nil] at he
    rcases he with (he | he) | he
    · split at he
      · simp only [List.flatten_cons, List.flatten_nil, List.append_nil] at he
        obtain ⟨w, _, hcall⟩ := spec.mem_fan_out _ _ e 0 he
        intro hdone
        rw [hdone] at hcall
        exact spec.done_not_mem_transition_calls w last item.type hu hcall
      · simp at he
    · obtain ⟨w, _, hcall⟩ := spec.mem_fan_out _ _ e 0 he
      intro hdone
      rw [hdone] at hcall
      exact spec.done_not_mem_entry_point w item hcall
    · exact ih (fun r hr => h r (List.mem_cons_of_mem _ hr)) _ e he

theorem apply_loop_fail_fast (pre post : List Item) (item : Item) (A B C : Visitor)
    (hpre : ∀ r ∈ pre, ∀ w ∈ [A, B, C], spec.supported w r.type = true)
    (hA : spec.supported A item.type = true) (hB : spec.supported B item.type = false) :
    apply (pre ++ item :: post) A [B, C]
      = ⟨(spec.open_blocks [A, B, C] .undefined pre).flatten
          ++ (if spec.last_tag .undefined pre ≠ item.type then
                spec.transition_block [A, B, C] (spec.last_tag .undefined pre) item.type
              else [])
          ++ ((spec.entry_point A item).toList).map (Event.mk 0),
        some ⟨"unknown type"⟩⟩ := by
  simp only [apply, apply_loop_append A [B, C] pre hpre, apply_loop, apply_item_recurse_pack,
    apply_item_recurse, switch_on_type_supported 0 item A hA,
    switch_on_type_unsupported 1 item B hB, apply_before_and_after_recurse_pack_eq]
  by_cases h : spec.last_tag .undefined pre = item.type
  · simp [h, Outcome.skip]
  · simp [h, spec.transition_block]

/-- C7: with visitors `[A, B, C]`, if every dispatch of the records before
record `item` succeeds, `A` accepts `item` and `B` rejects it, then `apply`
throws "unknown type"; its trace is the blocks of the records before `item`,
the transition block into `item` if its tag is new, and the single call of `A`
on `item`: `C` gets no call for `item`, no record after `item` is dispatched
(the run is the same whatever follows `item`), and `done` is never called. -/
theorem apply_fail_fast (pre post : List Item) (item : Item) (A B C : Visitor)
    (hpre : ∀ r ∈ pre, ∀ w ∈ [A, B, C], spec.supported w r.type = true)
    (hA : spec.supported A item.type = true) (hB : spec.supported B item.type = false) :
    ∃ cA, spec.entry_point A item = some cA ∧
      apply (pre ++ item :: post) A [B, C]
        = ⟨(spec.open_blocks [A, B, C] .undefined pre).flatten
            ++ (if spec.last_tag .undefined pre ≠ item.type then
                  spec.transition_block [A, B, C] (spec.last_tag .undefined pre) item.type
                else [])
            ++ [⟨0, cA⟩],
          some ⟨"unknown type"⟩⟩ ∧
      apply (pre ++ item :: post) A [B, C] = apply (pre ++ [item]) A [B, C] ∧
      ∀ e ∈ (apply (pre ++ item :: post) A [B, C]).trace, e.call ≠ .done := by
  obtain ⟨cA, hcA, _⟩ := spec.entry_point_isSome A item hA
  have hrun := apply_loop_fail_fast pre post item A B C hpre hA hB
  have hrun' := apply_loop_fail_fast pre [] item A B C hpre hA hB
  refine ⟨cA, hcA, ?_, ?_, ?_⟩
  · rw [hrun, hcA]; rfl
  · rw [hrun, hrun']
  · intro e he
    rw [hrun] at he
    simp only [List.mem_append] at he
    rcases he with (he | he) | he
    · exact spec.done_not_mem_open_blocks [A, B, C] A pre
        (fun r hr => hpre r hr A (List.mem_cons_self _ _)) _ e he
    · split at he
      · obtain ⟨w, _, hcall⟩ := spec.mem_fan_out _ _ e 0 he
        intro hdone
        rw [hdone] at hcall
        exact spec.done_not_mem_transition_calls w _ item.type
          (spec.supported_ne_undefined hA) hcall
      · simp at he
    · simp only [List.mem_map] at he
      obtain ⟨c, hc, rfl⟩ := he
      intro hdone
      simp only at hdone
      rw [hdone] at hc
      exact spec.done_not_mem_entry_point A item hc

theorem apply_fail_fast_witness :
    (∀ r ∈ ([⟨.node, 0⟩] : List Item), ∀ w ∈ [Visitor.callable, .handler, .callable],
      spec.supported w r.type = true) ∧
    spec.supported .callable item_type.tag_list = true ∧
    spec.supported .handler item_type.tag_list = false ∧
    apply ([⟨.node, 0⟩] ++ ⟨.tag_list, 1⟩ :: [⟨.way, 2⟩]) .callable [.handler, .callable]
      = ⟨[⟨1, .init⟩, ⟨1, .before_nodes⟩,
          ⟨0, .call_operator .Node ⟨.node, 0⟩⟩, ⟨1, .node ⟨.node, 0⟩⟩,
          ⟨2, .call_operator .Node ⟨.node, 0⟩⟩,
          ⟨1, .after_nodes⟩,
          ⟨0, .call_operator .TagList ⟨.tag_list, 1⟩⟩], some ⟨"unknown type"⟩⟩ ∧
    apply ([⟨.node, 0⟩] ++ ⟨.tag_list, 1⟩ :: [⟨.way, 2⟩]) .callable [.handler, .callable]
      = apply ([⟨.node, 0⟩] ++ [⟨.tag_list, 1⟩]) .callable [.handler, .callable] ∧
    ∀ e ∈ (apply ([⟨.node, 0⟩] ++ ⟨.tag_list, 1⟩ :: [⟨.way, 2⟩]) .callable
        [.handler, .callable]).trace, e.call ≠ .done := by
  obtain ⟨cA, hcA, hrun, hsame, hdone⟩ :=
    apply_fail_fast [⟨.node, 0⟩] [⟨.way, 2⟩] ⟨.tag_list, 1⟩ .callable .handler .callable
      (by decide) rfl rfl
  have hc : cA = .call_operator .TagList ⟨.tag_list, 1⟩ := by
    have : spec.entry_point .callable ⟨.tag_list, 1⟩
        = some (.call_operator .TagList ⟨.tag_list, 1⟩) := rfl
    rw [this] at hcA
    exact (Option.some.inj hcA).symm
  subst hc
  exact ⟨by decide, rfl, rfl, hrun, hsame, hdone⟩

/-! ## The stream as each visitor sees it -/

theorem map_some_filterMap {α β : Type} (f : α → Option β) (l : List α)
    (h : ∀ a ∈ l, ∃ b, f a = some b) : (l.filterMap f).map some = l.map f := by
  induction l with
  | nil => rfl
  | cons a l ih =>
    obtain ⟨b, hb⟩ := h a (List.mem_cons_self _ _)
    simp [List.filterMap_cons, hb, ih (fun x hx => h x (List.mem_cons_of_mem _ hx))]

theorem spec.filter_is_item_call_transition_calls (k : Visitor) (last current : item_type) :
    (spec.transition_calls k last current).filter spec.is_item_call = [] := by
  cases k <;> cases last <;> cases current <;> rfl

theorem spec.filter_is_item_call_entry_point (k : Visitor) (item : Item) :
    ((spec.entry_point k item).toList).filter spec.is_item_call
      = (spec.entry_point k item).toList := by
  obtain ⟨t, a⟩ := item
  cases k <;> cases t <;> rfl

theorem spec.calls_of_open_blocks (visitors : List Visitor) (i : Nat) (k : Visitor)
    (hk : visitors[i]? = some k) (stream : List Item) :
    ∀ last : item_type,
      (spec.calls_of i (spec.open_blocks visitors last stream).flatten).filter spec.is_item_call
          = stream.filterMap (spec.entry_point k) ∧
        (k = .callable → spec.calls_of i (spec.open_blocks visitors last stream).flatten
          = stream.filterMap (spec.entry_point k)) := by
  have htrans : ∀ last current : item_type,
      spec.calls_of i (spec.transition_block visitors last current)
        = spec.transition_calls k last current := fun last current =>
    spec.calls_of_fan_out _ visitors 0 i k (Nat.zero_le _) (by simpa using hk)
  have hitem : ∀ item : Item,
      spec.calls_of i (spec.item_block visitors item) = (spec.entry_point k item).toList :=
    fun item => spec.calls_of_fan_out _ visitors 0 i k (Nat.zero_le _) (by simpa using hk)
  induction stream with
  | nil => intro last; simp [spec.open_blocks, spec.calls_of]
  | cons item rest ih =>
    intro last
    obtain ⟨ih1, ih2⟩ := ih item.type
    constructor
    · by_cases h : last = item.type
      · simp [h, spec.open_blocks, spec.calls_of_append, hitem, ih1,
          spec.filter_is_item_call_entry_point, filterMap_cons_toList]
      · simp [h, spec.open_blocks, spec.calls_of_append, hitem, htrans, ih1,
          spec.filter_is_item_call_entry_point, spec.filter_is_item_call_transition_calls,
          filterMap_cons_toList]
    · intro hcallable
      subst hcallable
      by_cases h : last = item.type
      · simp [h, spec.open_blocks, spec.calls_of_append, hitem, ih2 rfl,
          filterMap_cons_toList]
      · simp [h, spec.open_blocks, spec.calls_of_append, hitem, htrans, ih2 rfl,
          spec.transition_calls, filterMap_cons_toList]

theorem spec.calls_of_blocks (visitors : List Visitor) (i : Nat) (k : Visitor)
    (hk : visitors[i]? = some k) (stream : List Item) (last : item_type) :
    (spec.calls_of i (spec.blocks visitors last stream).flatten).filter spec.is_item_call
        = stream.filterMap (spec.entry_point k) ∧
      (k = .callable → spec.calls_of i (spec.blocks visitors last stream).flatten
        = stream.filterMap (spec.entry_point k)) := by
  have htrans : ∀ last current : item_type,
      spec.calls_of i (spec.transition_block visitors last current)
        = spec.transition_calls k last current := fun last current =>
    spec.calls_of_fan_out _ visitors 0 i k (Nat.zero_le _) (by simpa using hk)
  obtain ⟨h1, h2⟩ := spec.calls_of_open_blocks visitors i k hk stream last
  constructor
  · simp [spec.blocks, spec.calls_of_append, htrans, h1,
      spec.filter_is_item_call_transition_calls]
  · intro hcallable
    subst hcallable
    simp [spec.blocks, spec.calls_of_append, htrans, h2 rfl, spec.transition_calls]

theorem spec.fan_out_visitor_lt (f : Visitor → List Call) (visitors : List Visitor) :
    ∀ idx : Nat, ∀ e ∈ spec.fan_out f idx visitors, e.visitor < idx + visitors.length := by
  induction visitors with
  | nil => intro idx e he; simp [spec.fan_out] at he
  | cons v more ih =>
    intro idx e he
    simp only [spec.fan_out, List.mem_append, List.mem_map] at he
    rcases he with ⟨c, _, rfl⟩ | he
    · simp
    · have := ih _ e he
      simp only [List.length_cons]
      omega

theorem spec.blocks_visitor_lt (visitors : List Visitor) (stream : List Item) :
    ∀ last : item_type, ∀ e ∈ (spec.open_blocks visitors last stream).flatten,
      e.visitor < visitors.length := by
  induction stream with
  | nil => intro last e he; simp [spec.open_blocks] at he
  | cons item rest ih =>
    intro last e he
    simp only [spec.open_blocks, List.flatten_append, List.mem_append, List.flatten_cons,
      List.flatten_nil, List.append_nil] at he
    rcases he with (he | he) | he
    · split at he
      · simp only [List.flatten_cons, List.flatten_nil, List.append_nil] at he
        simpa using spec.fan_out_visitor_lt _ visitors 0 e he
      · simp at he
    · simpa using spec.fan_out_visitor_lt _ visitors 0 e he
    · exact ih _ e he

theorem spec.calls_of_zero (trace : List Event) (h : ∀ e ∈ trace, e.visitor = 0) :
    spec.calls_of 0 trace = trace.map Event.call := by
  simp only [spec.calls_of]
  rw [List.filter_eq_self.mpr]
  intro e he
  simp [h e he]

/-- C10: on a stream on which no dispatch fails, the item calls received by
the visitor at each position of the pack are, in order, the entry point of that
visitor for each record of the stream in stream order, one call per record; for
a callable these item calls are all the calls it receives.  Over a stream
without undefined-tagged records, `apply` with one callable returns normally
and its trace is exactly the overload call for each record in stream order. -/
theorem apply_preserves_stream (stream : List Item) (v : Visitor) (more : List Visitor) :
    ((apply stream v more).thrown = none →
      ∀ (i : Nat) (k : Visitor), (v :: more)[i]? = some k →
        ((spec.calls_of i (apply stream v more).trace).filter spec.is_item_call).map some
            = stream.map (spec.entry_point k) ∧
          (k = .callable → (spec.calls_of i (apply stream v more).trace).map some
            = stream.map (spec.entry_point k))) ∧
    ((∀ item ∈ stream, item.type ≠ .undefined) →
      (apply stream .callable []).thrown = none ∧
        (apply stream .callable []).trace.map (fun e => some e.call)
          = stream.map (spec.entry_point .callable) ∧
        ∀ e ∈ (apply stream .callable []).trace, e.visitor = 0) := by
  constructor
  · intro h i k hk
    have hs := apply_loop_thrown_none v more stream .undefined h
    have hmem : k ∈ v :: more := List.getElem?_mem hk
    have hsome : ∀ item ∈ stream, ∃ c, spec.entry_point k item = some c := fun item hitem =>
      let ⟨c, hc, _⟩ := spec.entry_point_isSome k item (hs item hitem k hmem)
      ⟨c, hc⟩
    obtain ⟨h1, h2⟩ := spec.calls_of_blocks (v :: more) i k hk stream .undefined
    simp only [apply, apply_loop_supported v more stream hs]
    refine ⟨?_, fun hc => ?_⟩
    · rw [h1, map_some_filterMap _ _ hsome]
    · rw [h2 hc, map_some_filterMap _ _ hsome]
  · intro hu
    have hs : ∀ item ∈ stream, ∀ w ∈ [Visitor.callable], spec.supported w item.type = true := by
      intro item hitem w hw
      simp only [List.mem_singleton] at hw
      subst hw
      simpa [spec.supported] using hu item hitem
    have hsome : ∀ item ∈ stream, ∃ c, spec.entry_point .callable item = some c :=
      fun item hitem =>
        let ⟨c, hc, _⟩ := spec.entry_point_isSome .callable item
          (hs item hitem _ (List.mem_singleton_self _))
        ⟨c, hc⟩
    obtain ⟨_, h2⟩ := spec.calls_of_blocks [.callable] 0 .callable rfl stream .undefined
    have hzero : ∀ e ∈ (spec.blocks [.callable] .undefined stream).flatten, e.visitor = 0 := by
      intro e he
      simp only [spec.blocks, List.flatten_append, List.mem_append, List.flatten_cons,
        List.flatten_nil, List.append_nil] at he
      rcases he with he | he
      · simpa using spec.blocks_visitor_lt [.callable] stream _ e he
      · simpa using spec.fan_out_visitor_lt _ [.callable] 0 e he
    simp only [apply, apply_loop_supported .callable [] stream hs]
    refine ⟨trivial, ?_, hzero⟩
    have h3 := h2 rfl
    rw [spec.calls_of_zero _ hzero] at h3
    rw [← map_some_filterMap _ _ hsome, ← h3, List.map_map]
    rfl

theorem apply_preserves_stream_witness :
    (apply [⟨.node, 0⟩, ⟨.way, 1⟩] .handler [.callable]).thrown = none ∧
    ((spec.calls_of 0 (apply [⟨.node, 0⟩, ⟨.way, 1⟩] .handler [.callable]).trace).filter
        spec.is_item_call).map some
      = [some (.node ⟨.node, 0⟩), some (.way ⟨.way, 1⟩)] ∧
    (spec.calls_of 1 (apply [⟨.node, 0⟩, ⟨.way, 1⟩] .handler [.callable]).trace).map some
      = [some (.call_operator .Node ⟨.node, 0⟩), some (.call_operator .Way ⟨.way, 1⟩)] ∧
    (∀ item ∈ ([⟨.tag_list, 0⟩, ⟨.node, 1⟩] : List Item), item.type ≠ .undefined) ∧
    (apply [⟨.tag_list, 0⟩, ⟨.node, 1⟩] .callable []).trace.map (fun e => some e.call)
      = [some (.call_operator .TagList ⟨.tag_list, 0⟩),
         some (.call_operator .Node ⟨.node, 1⟩)] :=
  ⟨rfl,
    ((apply_preserves_stream [⟨.node, 0⟩, ⟨.way, 1⟩] .handler [.callable]).1 rfl
      0 .handler rfl).1,
    ((apply_preserves_stream [⟨.node, 0⟩, ⟨.way, 1⟩] .handler [.callable]).1 rfl
      1 .callable rfl).2 rfl,
    by decide,
    ((apply_preserves_stream [⟨.tag_list, 0⟩, ⟨.node, 1⟩] .callable []).2 (by decide)).2.1⟩

/-! ## The group-transition dispatch -/

/-- C11: the group-transition dispatch for a handler never throws and makes at
most two calls, the one for the previous tag first: on the previous tag `init`
for undefined, the after hook of an entity tag, nothing for a composite tag;
then on the current tag `done` for undefined, the before hook of an entity tag,
nothing for a composite tag. -/
theorem transition_dispatch_handler (last current : item_type) (idx : Nat) :
    apply_before_and_after_recurse last current idx .handler
        = ⟨(match last with
              | .undefined => [⟨idx, .init⟩]
              | .node => [⟨idx, .after_nodes⟩]
              | .way => [⟨idx, .after_ways⟩]
              | .relation => [⟨idx, .after_relations⟩]
              | .changeset => [⟨idx, .after_changesets⟩]
              | .tag_list | .way_node_list | .relation_member_list
              | .relation_member_list_with_full_members => [])
            ++ (match current with
              | .undefined => [⟨idx, .done⟩]
              | .node => [⟨idx, .before_nodes⟩]
              | .way => [⟨idx, .before_ways⟩]
              | .relation => [⟨idx, .before_relations⟩]
              | .changeset => [⟨idx, .before_changesets⟩]
              | .tag_list | .way_node_list | .relation_member_list
              | .relation_member_list_with_full_members => []), none⟩ ∧
      (apply_before_and_after_recurse last current idx .handler).trace
        = (spec.transition_calls .handler last current).map (Event.mk idx) ∧
      (apply_before_and_after_recurse last current idx .handler).trace.length ≤ 2 := by
  cases last <;> cases current <;> refine ⟨rfl, rfl, ?_⟩ <;>
    simp [apply_before_and_after_recurse, switch_on_type_before_after,
      Visitor.is_base_of_Handler, Outcome.invoke, Outcome.skip, Outcome.andThen]

theorem Outcome.mem_trace_andThen {a b : Outcome} {e : Event}
    (h : e ∈ (a.andThen b).trace) : e ∈ a.trace ∨ e ∈ b.trace := by
  obtain ⟨ta, _ | ea⟩ := a
  · simpa using h
  · exact Or.inl (by simpa using h)

theorem spec.mem_fan_out_pos (f : Visitor → List Call) (visitors : List Visitor) (e : Event) :
    ∀ idx : Nat, e ∈ spec.fan_out f idx visitors →
      idx ≤ e.visitor ∧ ∃ w, visitors[e.visitor - idx]? = some w ∧ e.call ∈ f w := by
  induction visitors with
  | nil => intro idx h; simp [spec.fan_out] at h
  | cons v more ih =>
    intro idx h
    simp only [spec.fan_out, List.mem_append, List.mem_map] at h
    rcases h with ⟨c, hc, rfl⟩ | h
    · exact ⟨Nat.le_refl _, v, by simp, hc⟩
    · obtain ⟨hle, w, hw, hcall⟩ := ih _ h
      refine ⟨by omega, w, ?_, hcall⟩
      have hsub : e.visitor - idx = (e.visitor - (idx + 1)) + 1 := by omega
      rw [hsub, List.getElem?_cons_succ]
      exact hw

theorem switch_on_type_is_item_call (idx : Nat) (item : Item) (tag : Bool) :
    ∀ e ∈ (switch_on_type idx item tag).trace, spec.is_item_call e.call = true := by
  obtain ⟨t, a⟩ := item
  cases tag <;> cases t <;>
    simp [switch_on_type, Outcome.invoke, Outcome.throw_unknown_type, spec.is_item_call]

theorem apply_item_recurse_pack_is_item_call (item : Item) (more : List Visitor) :
    ∀ (idx : Nat) (v : Visitor), ∀ e ∈ (apply_item_recurse_pack item idx v more).trace,
      spec.is_item_call e.call = true := by
  induction more with
  | nil => intro idx v e he; exact switch_on_type_is_item_call _ _ _ e he
  | cons next more ih =>
    intro idx v e he
    rcases Outcome.mem_trace_andThen he with h | h
    · exact switch_on_type_is_item_call _ _ _ e h
    · exact ih _ _ e h

theorem apply_before_and_after_recurse_pack_handler (last current : item_type) (v : Visitor)
    (more : List Visitor) :
    ∀ e ∈ (apply_before_and_after_recurse_pack last current 0 v more).trace,
      (v :: more)[e.visitor]? = some .handler := by
  intro e he
  rw [apply_before_and_after_recurse_pack_eq] at he
  obtain ⟨_, w, hw, hcall⟩ := spec.mem_fan_out_pos _ _ e 0 he
  cases w with
  | callable => simp [spec.transition_calls] at hcall
  | handler => simpa using hw

theorem apply_loop_hooks_on_handlers (v : Visitor) (more : List Visitor) (stream : List Item) :
    ∀ last : item_type, ∀ e ∈ (apply_loop v more last stream).trace,
      spec.is_item_call e.call = false → (v :: more)[e.visitor]? = some .handler := by
  induction stream with
  | nil =>
    intro last e he _
    exact apply_before_and_after_recurse_pack_handler _ _ v more e he
  | cons item rest ih =>
    intro last e he hcall
    simp only [apply_loop] at he
    rcases Outcome.mem_trace_andThen he with h | h
    · rcases Outcome.mem_trace_andThen h with h | h
      · by_cases hl : last = item.type
        · simp [hl, Outcome.skip] at h
        · simp only [ne_eq, hl, not_false_eq_true, if_true] at h
          exact apply_before_and_after_recurse_pack_handler _ _ v more e h
      · rw [apply_item_recurse_pack_is_item_call item more 0 v e h] at hcall
        exact absurd hcall (by decide)
    · exact ih _ e h hcall

/-- C12: the group-transition dispatch for a callable makes no call and does
not throw; in the fan-out of a transition over any pack, and in the whole trace
of `apply`, every lifecycle call is made on a position of the pack that holds a
handler. -/
theorem transition_dispatch_callable (last current : item_type) (idx : Nat)
    (stream : List Item) (v : Visitor) (more : List Visitor) :
    apply_before_and_after_recurse last current idx .callable = ⟨[], none⟩ ∧
      (apply_before_and_after_recurse_pack last current 0 v more).thrown = none ∧
      (∀ e ∈ (apply_before_and_after_recurse_pack last current 0 v more).trace,
        (v :: more)[e.visitor]? = some .handler) ∧
      (∀ e ∈ (apply stream v more).trace, spec.is_item_call e.call = false →
        (v :: more)[e.visitor]? = some .handler) :=
  ⟨rfl, apply_before_and_after_recurse_pack_thrown _ _ _ _ _,
    apply_before_and_after_recurse_pack_handler _ _ _ _,
    apply_loop_hooks_on_handlers v more stream .undefined⟩

theorem transition_dispatch_callable_witness :
    (⟨1, .after_nodes⟩ : Event)
        ∈ (apply_before_and_after_recurse_pack .node .way 0 .callable [.handler]).trace ∧
      [Visitor.callable, Visitor.handler][1]? = some Visitor.handler ∧
      (⟨1, .done⟩ : Event) ∈ (apply [⟨.node, 0⟩] .callable [.handler]).trace ∧
      spec.is_item_call Call.done = false :=
  ⟨by decide,
    (transition_dispatch_callable .node .way 0 [⟨.node, 0⟩] .callable [.handler]).2.2.1
      ⟨1, .after_nodes⟩ (by decide),
    by decide, rfl⟩

/-! ## Dispatch through a reference to `osmium::Object` -/

/-- C13, as stated, fails: the overloads for `osmium::Object&` and for
`const osmium::Object&` have a default case, and a changeset tag makes both
throw "unknown type". -/
theorem switch_on_type_Object_throws :
    switch_on_type_Object 0 ⟨.changeset, 0⟩ = ⟨[], some ⟨"unknown type"⟩⟩ ∧
      switch_on_type_const_Object 0 ⟨.changeset, 0⟩ = ⟨[], some ⟨"unknown type"⟩⟩ ∧
      ¬ ∀ item : Item, (switch_on_type_Object 0 item).thrown = none :=
  ⟨rfl, rfl, fun h => absurd (h ⟨.changeset, 0⟩) (by decide)⟩

/-- C13, as the code has it: the handler dispatch through a reference to
`osmium::Object` (mutable or read-only) covers node, way and relation, for
which it makes the one call of the named method and does not throw, and has a
default case: for every other tag it makes no call and throws "unknown type". -/
theorem switch_on_type_Object_cases (item : Item) (idx : Nat) :
    (spec.is_object item.type = true →
      ∃ c, spec.named_method item = some c ∧
        switch_on_type_Object idx item = ⟨[⟨idx, c⟩], none⟩ ∧
        switch_on_type_const_Object idx item = ⟨[⟨idx, c⟩], none⟩) ∧
    (spec.is_object item.type = false →
      switch_on_type_Object idx item = ⟨[], some ⟨"unknown type"⟩⟩ ∧
        switch_on_type_const_Object idx item = ⟨[], some ⟨"unknown type"⟩⟩) := by
  obtain ⟨t, a⟩ := item
  cases t <;>
    simp [spec.is_object, spec.named_method, switch_on_type_Object,
      switch_on_type_const_Object, Outcome.invoke, Outcome.throw_unknown_type]

theorem switch_on_type_Object_cases_witness :
    (∃ c, spec.named_method ⟨.way, 5⟩ = some c ∧
        switch_on_type_Object 0 ⟨.way, 5⟩ = ⟨[⟨0, c⟩], none⟩ ∧
        switch_on_type_const_Object 0 ⟨.way, 5⟩ = ⟨[⟨0, c⟩], none⟩) ∧
    (switch_on_type_Object 0 ⟨.tag_list, 6⟩ = ⟨[], some ⟨"unknown type"⟩⟩ ∧
        switch_on_type_const_Object 0 ⟨.tag_list, 6⟩ = ⟨[], some ⟨"unknown type"⟩⟩) :=
  ⟨(switch_on_type_Object_cases ⟨.way, 5⟩ 0).1 rfl,
    (switch_on_type_Object_cases ⟨.tag_list, 6⟩ 0).2 rfl⟩

/-- C14: for a record with tag node, way or relation, the handler dispatch
through a reference to `osmium::Object`, mutable or read-only, does exactly
what the dispatch through a generic reference does: the one call of the method
named for the tag, on that record; and for no tag does the dispatch through an
`osmium::Object` reference call the changeset method. -/
theorem switch_on_type_Object_agrees (item : Item) (idx : Nat) :
    (spec.is_object item.type = true →
      switch_on_type_Object idx item = switch_on_type idx item true ∧
        switch_on_type_const_Object idx item = switch_on_type idx item true ∧
        ∃ c, spec.named_method item = some c ∧
          switch_on_type idx item true = ⟨[⟨idx, c⟩], none⟩) ∧
    (∀ e ∈ (switch_on_type_Object idx item).trace, ∀ r : Item, e.call ≠ .changeset r) ∧
    (∀ e ∈ (switch_on_type_const_Object idx item).trace, ∀ r : Item,
      e.call ≠ .changeset r) := by
  obtain ⟨t, a⟩ := item
  cases t <;>
    simp [spec.is_object, spec.named_method, switch_on_type_Object,
      switch_on_type_const_Object, switch_on_type, Outcome.invoke, Outcome.throw_unknown_type]

theorem switch_on_type_Object_agrees_witness :
    spec.is_object item_type.relation = true ∧
      switch_on_type_Object 2 ⟨.relation, 9⟩ = switch_on_type 2 ⟨.relation, 9⟩ true ∧
      switch_on_type_const_Object 2 ⟨.relation, 9⟩ = switch_on_type 2 ⟨.relation, 9⟩ true ∧
      ∃ c, spec.named_method ⟨.relation, 9⟩ = some c ∧
        switch_on_type 2 ⟨.relation, 9⟩ true = ⟨[⟨2, c⟩], none⟩ :=
  ⟨rfl, (switch_on_type_Object_agrees ⟨.relation, 9⟩ 2).1 rfl⟩

/-! ## A visitor in a pack and the same visitor alone -/

theorem spec.map_call_fan_out_single (f : Visitor → List Call) (k : Visitor) :
    (spec.fan_out f 0 [k]).map Event.call = f k := by
  simp [spec.fan_out, List.map_map, Function.comp_def]

theorem spec.map_call_item_block_single (k : Visitor) (item : Item) :
    (spec.item_block [k] item).map Event.call = (spec.entry_point k item).toList :=
  spec.map_call_fan_out_single _ k

theorem spec.map_call_transition_block_single (k : Visitor) (last current : item_type) :
    (spec.transition_block [k] last current).map Event.call
      = spec.transition_calls k last current :=
  spec.map_call_fan_out_single _ k

theorem spec.calls_of_open_blocks_single (visitors : List Visitor) (i : Nat) (k : Visitor)
    (hk : visitors[i]? = some k) (stream : List Item) :
    ∀ last : item_type,
      spec.calls_of i (spec.open_blocks visitors last stream).flatten
        = (spec.open_blocks [k] last stream).flatten.map Event.call := by
  have htrans : ∀ last current : item_type,
      spec.calls_of i (spec.transition_block visitors last current)
        = spec.transition_calls k last current := fun last current =>
    spec.calls_of_fan_out _ visitors 0 i k (Nat.zero_le _) (by simpa using hk)
  have hitem : ∀ item : Item,
      spec.calls_of i (spec.item_block visitors item) = (spec.entry_point k item).toList :=
    fun item => spec.calls_of_fan_out _ visitors 0 i k (Nat.zero_le _) (by simpa using hk)
  induction stream with
  | nil => intro last; simp [spec.open_blocks, spec.calls_of]
  | cons item rest ih =>
    intro last
    by_cases h : last = item.type
    · simp [h, spec.open_blocks, spec.calls_of_append, hitem, ih item.type,
        spec.map_call_item_block_single]
    · simp [h, spec.open_blocks, spec.calls_of_append, hitem, htrans, ih item.type,
        spec.map_call_item_block_single, spec.map_call_transition_block_single]

theorem spec.calls_of_blocks_single (visitors : List Visitor) (i : Nat) (k : Visitor)
    (hk : visitors[i]? = some k) (stream : List Item) (last : item_type) :
    spec.calls_of i (spec.blocks visitors last stream).flatten
      = (spec.blocks [k] last stream).flatten.map Event.call := by
  have htrans : ∀ last current : item_type,
      spec.calls_of i (spec.transition_block visitors last current)
        = spec.transition_calls k last current := fun last current =>
    spec.calls_of_fan_out _ visitors 0 i k (Nat.zero_le _) (by simpa using hk)
  simp [spec.blocks, spec.calls_of_append, htrans,
    spec.calls_of_open_blocks_single visitors i k hk stream last,
    spec.map_call_transition_block_single]

/-- C16: on a stream on which no dispatch fails for any visitor of the pack,
the calls received by the visitor at position `i` during `apply` over the whole
pack are, in order, the calls that visitor receives from `apply` over the same
stream with itself as the only visitor, and that run returns normally too. -/
theorem apply_pack_vs_alone (stream : List Item) (v : Visitor) (more : List Visitor)
    (i : Nat) (k : Visitor) (h : (apply stream v more).thrown = none)
    (hk : (v :: more)[i]? = some k) :
    spec.calls_of i (apply stream v more).trace = (apply stream k []).trace.map Event.call ∧
      (apply stream k []).thrown = none := by
  have hs := apply_loop_thrown_none v more stream .undefined h
  have hmem : k ∈ v :: more := List.getElem?_mem hk
  have hs' : ∀ item ∈ stream, ∀ w ∈ [k], spec.supported w item.type = true := by
    intro item hitem w hw
    simp only [List.mem_singleton] at hw
    subst hw
    exact hs item hitem w hmem
  simp only [apply, apply_loop_supported v more stream hs, apply_loop_supported k [] stream hs']
  exact ⟨spec.calls_of_blocks_single (v :: more) i k hk stream .undefined, trivial⟩

theorem apply_pack_vs_alone_witness :
    (apply [⟨.node, 0⟩, ⟨.way, 1⟩] .callable [.handler, .callable]).thrown = none ∧
      [Visitor.callable, Visitor.handler, Visitor.callable][1]? = some Visitor.handler ∧
      spec.calls_of 1 (apply [⟨.node, 0⟩, ⟨.way, 1⟩] .callable [.handler, .callable]).trace
        = [.init, .before_nodes, .node ⟨.node, 0⟩, .after_nodes, .before_ways,
           .way ⟨.way, 1⟩, .after_ways, .done] ∧
      (apply [⟨.node, 0⟩, ⟨.way, 1⟩] .handler []).trace.map Event.call
        = [.init, .before_nodes, .node ⟨.node, 0⟩, .after_nodes, .before_ways,
           .way ⟨.way, 1⟩, .after_ways, .done] :=
  ⟨rfl, rfl,
    (apply_pack_vs_alone [⟨.node, 0⟩, ⟨.way, 1⟩] .callable [.handler, .callable] 1 .handler
      rfl rfl).1.trans rfl,
    rfl⟩

/-! ## The hooks of a group change over two handlers -/

theorem spec.closing_entity {t : item_type} (h : spec.is_entity t = true) :
    ∃ a, spec.after_hook t = some a ∧ spec.closing t = [a] := by
  cases t <;> simp [spec.is_entity] at h <;> simp [spec.after_hook, spec.closing]

theorem spec.opening_entity {t : item_type} (h : spec.is_entity t = true) :
    ∃ b, spec.before_hook t = some b ∧ spec.opening t = [b] := by
  cases t <;> simp [spec.is_entity] at h <;> simp [spec.before_hook, spec.opening]

/-- C17: at a change from a group of entity tag `t` to a record of another
entity tag, with two handlers, the transition dispatch calls the after hook of
`t` and the before hook of the new tag on the first handler, then the same two
hooks on the second handler; and in the run of `apply` these four calls come
right after the calls for the earlier records and right before the item calls
of the two handlers for the first record of the new group. -/
theorem transition_interleaving (pre rest : List Item) (item : Item) (t : item_type)
    (hpre : ∀ r ∈ pre, spec.is_entity r.type = true)
    (hlast : spec.last_tag .undefined pre = t) (ht : spec.is_entity t = true)
    (hitem : spec.is_entity item.type = true) (hne : t ≠ item.type) :
    ∃ a b c, spec.after_hook t = some a ∧ spec.before_hook item.type = some b ∧
      spec.named_method item = some c ∧
      apply_before_and_after_recurse_pack t item.type 0 .handler [.handler]
        = ⟨[⟨0, a⟩, ⟨0, b⟩, ⟨1, a⟩, ⟨1, b⟩], none⟩ ∧
      apply (pre ++ item :: rest) .handler [.handler]
        = (Outcome.mk ((spec.open_blocks [.handler, .handler] .undefined pre).flatten
              ++ [⟨0, a⟩, ⟨0, b⟩, ⟨1, a⟩, ⟨1, b⟩, ⟨0, c⟩, ⟨1, c⟩]) none).andThen
            (apply_loop .handler [.handler] item.type rest) := by
  obtain ⟨a, ha, hclose⟩ := spec.closing_entity ht
  obtain ⟨b, hb, hopen⟩ := spec.opening_entity hitem
  obtain ⟨c, hc, _⟩ := spec.entry_point_isSome .handler item (by simpa [spec.supported] using hitem)
  have hc' : spec.named_method item = some c := hc
  have hsup : ∀ r ∈ pre, ∀ w ∈ [Visitor.handler, Visitor.handler],
      spec.supported w r.type = true := by
    intro r hr w hw
    have : w = .handler := by simpa using hw
    subst this
    simpa [spec.supported] using hpre r hr
  have hsupi : ∀ w ∈ [Visitor.handler, Visitor.handler],
      spec.supported w item.type = true := by
    intro w hw
    have : w = .handler := by simpa using hw
    subst this
    simpa [spec.supported] using hitem
  have hhooks : apply_before_and_after_recurse_pack t item.type 0 .handler [.handler]
      = ⟨[⟨0, a⟩, ⟨0, b⟩, ⟨1, a⟩, ⟨1, b⟩], none⟩ := by
    rw [apply_before_and_after_recurse_pack_eq]
    simp [spec.fan_out, spec.transition_calls, hclose, hopen]
  have hitems : apply_item_recurse_pack item 0 .handler [.handler]
      = ⟨[⟨0, c⟩, ⟨1, c⟩], none⟩ := by
    rw [apply_item_recurse_pack_supported item [.handler] 0 .handler hsupi]
    simp [spec.fan_out, spec.entry_point, hc']
  refine ⟨a, b, c, ha, hb, hc', hhooks, ?_⟩
  simp only [apply, apply_loop_append .handler [.handler] pre hsup, hlast, apply_loop, hhooks,
    hitems]
  simp [hne]

theorem transition_interleaving_witness :
    (∀ r ∈ ([⟨.node, 0⟩] : List Item), spec.is_entity r.type = true) ∧
      spec.last_tag .undefined [⟨.node, 0⟩] = .node ∧
      spec.is_entity .node = true ∧ spec.is_entity .way = true ∧
      item_type.node ≠ item_type.way ∧
      apply_before_and_after_recurse_pack .node .way 0 .handler [.handler]
        = ⟨[⟨0, .after_nodes⟩, ⟨0, .before_ways⟩, ⟨1, .after_nodes⟩, ⟨1, .before_ways⟩],
            none⟩ ∧
      apply ([⟨.node, 0⟩] ++ ⟨.way, 1⟩ :: [⟨.way, 2⟩]) .handler [.handler]
        = ⟨[⟨0, .init⟩, ⟨0, .before_nodes⟩, ⟨1, .init⟩, ⟨1, .before_nodes⟩,
            ⟨0, .node ⟨.node, 0⟩⟩, ⟨1, .node ⟨.node, 0⟩⟩,
            ⟨0, .after_nodes⟩, ⟨0, .before_ways⟩, ⟨1, .after_nodes⟩, ⟨1, .before_ways⟩,
            ⟨0, .way ⟨.way, 1⟩⟩, ⟨1, .way ⟨.way, 1⟩⟩,
            ⟨0, .way ⟨.way, 2⟩⟩, ⟨1, .way ⟨.way, 2⟩⟩,
            ⟨0, .after_ways⟩, ⟨0, .done⟩, ⟨1, .after_ways⟩, ⟨1, .done⟩], none⟩ := by
  obtain ⟨a, b, c, ha, hb, hc, hhooks, hrun⟩ :=
    transition_interleaving [⟨.node, 0⟩] [⟨.way, 2⟩] ⟨.way, 1⟩ .node (by decide) rfl rfl rfl
      (by decide)
  have ha' : a = .after_nodes := (Option.some.inj ha).symm
  have hb' : b = .before_ways := (Option.some.inj hb).symm
  have hc' : c = .way ⟨.way, 1⟩ := (Option.some.inj hc).symm
  subst ha' hb' hc'
  exact ⟨by decide, rfl, rfl, rfl, by decide, hhooks, hrun.trans rfl⟩

/-! ## `init` and `done` as one handler sees them -/

theorem lifecycle_tail_done (closed : Prop) : lifecycle_tail [Call.done] closed :=
  ⟨[], [Call.done], rfl, by simp, Or.inr rfl, fun _ => rfl⟩

theorem lifecycle_tail_neutral {N : List Call} {closed : Prop} (hN : ∀ c ∈ N, c.neutral)
    (hc : ¬ closed) : lifecycle_tail N closed :=
  ⟨N, [], by simp, hN, Or.inl rfl, fun h => absurd h hc⟩

theorem lifecycle_tail_append {N H : List Call} {closed : Prop} (hN : ∀ c ∈ N, c.neutral)
    (hH : lifecycle_tail H closed) : lifecycle_tail (N ++ H) closed := by
  obtain ⟨M, b, rfl, hM, hb, hcl⟩ := hH
  refine ⟨N ++ M, b, by simp, ?_, hb, hcl⟩
  intro c hc
  rcases List.mem_append.mp hc with h | h
  · exact hN c h
  · exact hM c h

theorem spec.closing_neutral {last : item_type} (h : last ≠ .undefined) :
    ∀ c ∈ spec.closing last, c.neutral := by
  cases last <;> simp [spec.closing, spec.after_hook, Call.neutral] at h ⊢

theorem spec.opening_neutral {current : item_type} (h : current ≠ .undefined) :
    ∀ c ∈ spec.opening current, c.neutral := by
  cases current <;> simp [spec.opening, spec.before_hook, Call.neutral] at h ⊢

theorem spec.is_item_call_neutral {c : Call} (h : spec.is_item_call c = true) : c.neutral := by
  cases c <;> simp [spec.is_item_call, Call.neutral] at h ⊢

theorem spec.mem_calls_of {i : Nat} {trace : List Event} {c : Call}
    (h : c ∈ spec.calls_of i trace) : ∃ e ∈ trace, e.call = c := by
  simp only [spec.calls_of, List.mem_map, List.mem_filter] at h
  obtain ⟨e, ⟨he, _⟩, hc⟩ := h
  exact ⟨e, he, hc⟩

theorem apply_item_recurse_pack_calls_neutral (item : Item) (v : Visitor)
    (more : List Visitor) (i : Nat) :
    ∀ c ∈ spec.calls_of i (apply_item_recurse_pack item 0 v more).trace, c.neutral := by
  intro c hc
  obtain ⟨e, he, rfl⟩ := spec.mem_calls_of hc
  exact spec.is_item_call_neutral (apply_item_recurse_pack_is_item_call item more 0 v e he)

theorem apply_item_recurse_pack_undefined (item : Item) (v : Visitor) (more : List Visitor)
    (idx : Nat) (h : item.type = .undefined) :
    apply_item_recurse_pack item idx v more = ⟨[], some ⟨"unknown type"⟩⟩ := by
  have hs : spec.supported v item.type = false := by
    rw [h]; cases v <;> rfl
  cases more with
  | nil => exact switch_on_type_unsupported idx item v hs
  | cons next more =>
    simp [apply_item_recurse_pack, apply_item_recurse, switch_on_type_unsupported idx item v hs]

theorem apply_loop_cons (v : Visitor) (more : List Visitor) (last : item_type) (item : Item)
    (rest : List Item) :
    apply_loop v more last (item :: rest)
      = (Outcome.mk
          ((if last ≠ item.type then spec.transition_block (v :: more) last item.type else [])
            ++ (apply_item_recurse_pack item 0 v more).trace)
          (apply_item_recurse_pack item 0 v more).thrown).andThen
        (apply_loop v more item.type rest) := by
  have hlast : (if last ≠ item.type then item.type else last) = item.type := by
    by_cases h : last = item.type <;> simp [h]
  simp only [apply_loop, hlast, apply_before_and_after_recurse_pack_eq]
  by_cases h : last = item.type
  · simp [h, Outcome.skip]
  · simp [h, spec.transition_block]

theorem spec.calls_of_transition_block_handler (visitors : List Visitor) (i : Nat)
    (hi : visitors[i]? = some .handler) (last current : item_type) :
    spec.calls_of i (spec.transition_block visitors last current)
      = spec.closing last ++ spec.opening current :=
  spec.calls_of_fan_out _ visitors 0 i .handler (Nat.zero_le _) (by simpa using hi)

theorem calls_of_handler_loop (v : Visitor) (more : List Visitor) (i : Nat)
    (hi : (v :: more)[i]? = some .handler) (stream : List Item) :
    ∀ last : item_type,
      (last ≠ .undefined →
        lifecycle_tail (spec.calls_of i (apply_loop v more last stream).trace)
          ((apply_loop v more last stream).thrown = none)) ∧
      (last = .undefined →
        (spec.calls_of i (apply_loop v more last stream).trace = []
            ∧ (apply_loop v more last stream).thrown ≠ none)
          ∨ ∃ H, spec.calls_of i (apply_loop v more last stream).trace = Call.init :: H
            ∧ lifecycle_tail H ((apply_loop v more last stream).thrown = none)) := by
  have htrans := spec.calls_of_transition_block_handler (v :: more) i hi
  induction stream with
  | nil =>
    intro last
    have hrun : apply_loop v more last []
        = ⟨spec.transition_block (v :: more) last .undefined, none⟩ := by
      simp [apply_loop, apply_before_and_after_recurse_pack_eq, spec.transition_block]
    rw [hrun]
    simp only [htrans]
    constructor
    · intro hl
      exact lifecycle_tail_append (spec.closing_neutral hl) (lifecycle_tail_done _)
    · intro hl
      subst hl
      exact Or.inr ⟨[Call.done], rfl, lifecycle_tail_done _⟩
  | cons item rest ih =>
    intro last
    have hJ := apply_item_recurse_pack_calls_neutral item v more i
    have hundef := apply_item_recurse_pack_undefined item v more 0
    have hsucc := apply_item_recurse_pack_thrown_none item more 0 v
    have hT : spec.calls_of i
        (if last ≠ item.type then spec.transition_block (v :: more) last item.type else [])
          = if last ≠ item.type then spec.closing last ++ spec.opening item.type else [] := by
      split
      · exact htrans _ _
      · rfl
    rw [apply_loop_cons]
    generalize apply_item_recurse_pack item 0 v more = I at hJ hundef hsucc
    obtain ⟨It, Ith⟩ := I
    simp only at hJ
    cases Ith with
    | none =>
      have hne : item.type ≠ .undefined :=
        spec.supported_ne_undefined (hsucc rfl v (List.mem_cons_self _ _))
      have hR := (ih item.type).1 hne
      simp only [Outcome.andThen_ok, spec.calls_of_append, hT, List.append_assoc]
      constructor
      · intro hl
        by_cases h : last ≠ item.type
        · rw [if_pos h, List.append_assoc]
          exact lifecycle_tail_append (spec.closing_neutral hl)
            (lifecycle_tail_append (spec.opening_neutral hne) (lifecycle_tail_append hJ hR))
        · rw [if_neg h, List.nil_append]
          exact lifecycle_tail_append hJ hR
      · intro hl
        subst hl
        have h : item_type.undefined ≠ item.type := fun e => hne e.symm
        rw [if_pos h]
        exact Or.inr ⟨_, rfl,
          lifecycle_tail_append (spec.opening_neutral hne) (lifecycle_tail_append hJ hR)⟩
    | some e =>
      simp only [Outcome.andThen_thrown, spec.calls_of_append, hT]
      have hfail : ¬ (some e = (none : Option runtime_error)) := by simp
      have hIt : item.type = .undefined → It = [] := by
        intro hu
        have := hundef hu
        simp only [Outcome.mk.injEq] at this
        exact this.1
      constructor
      · intro hl
        by_cases h : last ≠ item.type
        · rw [if_pos h, List.append_assoc]
          refine lifecycle_tail_append (spec.closing_neutral hl) ?_
          by_cases hu : item.type = .undefined
          · rw [hIt hu, hu]
            exact lifecycle_tail_done _
          · exact lifecycle_tail_append (spec.opening_neutral hu)
              (lifecycle_tail_neutral hJ hfail)
        · rw [if_neg h, List.nil_append]
          exact lifecycle_tail_neutral hJ hfail
      · intro hl
        subst hl
        by_cases hu : item.type = .undefined
        · left
          have h : ¬ item_type.undefined ≠ item.type := fun h => h hu.symm
          rw [if_neg h, hIt hu]
          exact ⟨rfl, hfail⟩
        · have h : item_type.undefined ≠ item.type := fun e => hu e.symm
          rw [if_pos h]
          exact Or.inr ⟨_, rfl,
            lifecycle_tail_append (spec.opening_neutral hu) (lifecycle_tail_neutral hJ hfail)⟩

theorem getLast?_cons_of_getLast? {α : Type} (a x : α) (l : List α)
    (h : l.getLast? = some x) : (a :: l).getLast? = some x := by
  cases l with
  | nil => simp at h
  | cons b l => simpa [List.getLast?_cons_cons] using h

theorem lifecycle_tail_props {H : List Call} {closed : Prop} (h : lifecycle_tail H closed) :
    H.count Call.init = 0 ∧ H.count Call.done ≤ 1 ∧
      (Call.done ∈ H → H.getLast? = some Call.done) ∧ (closed → H.count Call.done = 1) := by
  obtain ⟨M, b, rfl, hM, hb, hcl⟩ := h
  have hi : M.count Call.init = 0 := List.count_eq_zero.mpr (fun hm => (hM _ hm).1 rfl)
  have hd : M.count Call.done = 0 := List.count_eq_zero.mpr (fun hm => (hM _ hm).2 rfl)
  have hdm : Call.done ∉ M := fun hm => (hM _ hm).2 rfl
  rcases hb with rfl | rfl
  · refine ⟨by simpa using hi, by simp [hd], ?_, ?_⟩
    · intro hmem
      simp only [List.append_nil] at hmem
      exact absurd hmem hdm
    · intro hc
      exact absurd (hcl hc) (by simp)
  · refine ⟨by simp [List.count_append, hi], by simp [List.count_append, hd], ?_, ?_⟩
    · intro _
      simp
    · intro _
      simp [List.count_append, hd]

/-- C15: for every stream, every pack and every position of the pack that
holds a handler, whether `apply` returns or throws: the handler receives `init`
at most once and `done` at most once; if it receives `init`, that is its first
call; if it receives `done`, that is its last call; and if `apply` returns
normally it receives each of them exactly once. -/
theorem apply_init_done (stream : List Item) (v : Visitor) (more : List Visitor) (i : Nat)
    (hi : (v :: more)[i]? = some .handler) :
    (spec.calls_of i (apply stream v more).trace).count Call.init ≤ 1 ∧
    (spec.calls_of i (apply stream v more).trace).count Call.done ≤ 1 ∧
    (Call.init ∈ spec.calls_of i (apply stream v more).trace →
      (spec.calls_of i (apply stream v more).trace).head? = some Call.init) ∧
    (Call.done ∈ spec.calls_of i (apply stream v more).trace →
      (spec.calls_of i (apply stream v more).trace).getLast? = some Call.done) ∧
    ((apply stream v more).thrown = none →
      (spec.calls_of i (apply stream v more).trace).count Call.init = 1 ∧
      (spec.calls_of i (apply stream v more).trace).count Call.done = 1) := by
  rcases (calls_of_handler_loop v more i hi stream .undefined).2 rfl with ⟨hnil, hthrown⟩ | ⟨H, hH, htail⟩
  · simp only [apply, hnil]
    refine ⟨by simp, by simp, by simp, by simp, ?_⟩
    intro h
    exact absurd h hthrown
  · obtain ⟨h0, h1, hlast, hclosed⟩ := lifecycle_tail_props htail
    simp only [apply, hH]
    refine ⟨by simp [h0], by simpa using h1, by simp, ?_, ?_⟩
    · intro hmem
      have hmem' : Call.done ∈ H := by simpa using hmem
      exact getLast?_cons_of_getLast? _ _ _ (hlast hmem')
    · intro h
      exact ⟨by simp [h0], by simpa using hclosed h⟩

theorem apply_init_done_witness :
    [Visitor.callable, Visitor.handler][1]? = some Visitor.handler ∧
      spec.calls_of 1 (apply [⟨.node, 0⟩, ⟨.undefined, 1⟩, ⟨.way, 2⟩] .callable [.handler]).trace
        = [.init, .before_nodes, .node ⟨.node, 0⟩, .after_nodes, .done] ∧
      (apply [⟨.node, 0⟩, ⟨.undefined, 1⟩, ⟨.way, 2⟩] .callable [.handler]).thrown
        = some ⟨"unknown type"⟩ ∧
      (spec.calls_of 1
        (apply [⟨.node, 0⟩, ⟨.undefined, 1⟩, ⟨.way, 2⟩] .callable [.handler]).trace).getLast?
        = some Call.done :=
  ⟨rfl, rfl, rfl,
    (apply_init_done [⟨.node, 0⟩, ⟨.undefined, 1⟩, ⟨.way, 2⟩] .callable [.handler] 1 rfl).2.2.2.1
      (by decide)⟩

end osmium
